import Mathlib

/-!
Verification of the LaTeX normalization / classification / decomposition engine.

Shallow embedding of the text-processing core found in
`src/components/calculator/hooks/useExpressionLogic.ts` (the group scanner
`parseGroup`, the bounds scanner `parseBounds`, the absolute-value rewriter
passes plus `convertSimplePipes`, and the construct classifier implemented by
`processExpression`'s branch chain) and in `src/utils/latex-parser.ts`
(`latexToNerdamer`).

Strings are modelled as `List Char` (JavaScript strings, all-ASCII in every
construct the code manipulates).  JavaScript regular-expression passes are
embedded as hand-written deterministic scanners: each pattern used by the code
is free of genuine backtracking ambiguity (greedy character classes are always
delimited by characters excluded from the class), so a single-pass scanner
computes the same match; the few places where backtracking is observable
(optional groups before a required delimiter) are noted and mirrored at the
definition site.  `try`/`catch` blocks in the source guard runtime exceptions
that the modelled string primitives cannot raise; the embedding is total.
-/

namespace Ozon

/-- Coerce a Lean string literal to the `List Char` model. -/
def S (s : String) : List Char := s.data

/-- JavaScript `\s` class restricted to the whitespace characters that can
actually occur in the pipeline's inputs (the editor emits ASCII whitespace). -/
def isWs (c : Char) : Bool :=
  c = ' ' || c = '\t' || c = '\n' || c = '\r' || c = '\x0b' || c = '\x0c'

/-- JavaScript `[a-zA-Z]`. -/
def isAlphaCh (c : Char) : Bool :=
  ('a' ≤ c && c ≤ 'z') || ('A' ≤ c && c ≤ 'Z')

/-- JavaScript `[0-9]`. -/
def isDigitCh (c : Char) : Bool :=
  '0' ≤ c && c ≤ '9'

/-- JavaScript `[a-zA-Z0-9]`. -/
def isAlnumCh (c : Char) : Bool :=
  isAlphaCh c || isDigitCh c

/-- `String.prototype.trim`. -/
def trimL (l : List Char) : List Char :=
  ((l.dropWhile isWs).reverse.dropWhile isWs).reverse

/-- Does `pat` occur as a contiguous substring of `s`? -/
def containsSub (pat s : List Char) : Bool :=
  s.tails.any (fun t => pat.isPrefixOf t)

/-!
## Bracket/Group Scanner (`parseGroup`, `parseBounds`)

Source: `useExpressionLogic.ts` lines 683-732.  The scanner walks the string
from a start offset; behaviour depends only on the suffix at that offset, so
the core is defined on the suffix and an index wrapper adds the offset back.
-/

/-- The brace-depth scan of `parseGroup`'s `{` branch (lines 692-702).
Scans `l` with current nesting depth `d ≥ 1`; returns the interior text
(excluding the closing brace) and the remainder after the closing brace, or
`none` when the braces stay unbalanced to end-of-string. -/
def braceScan : List Char → Nat → Option (List Char × List Char)
  | [], _ => none
  | c :: t, d =>
    let d' := if c = '{' then d + 1 else if c = '}' then d - 1 else d
    if d' = 0 then some ([], t)
    else (braceScan t d').map (fun p => (c :: p.1, p.2))

/-- `parseGroup` (lines 689-711) on the suffix starting at the scan offset.
Returns the parsed value and the number of characters consumed (the amount the
closure's `i` advances), including the leading whitespace skipped by
`skipSpace`. -/
def parseGroupL (t : List Char) : List Char × Nat :=
  let w := (t.takeWhile isWs).length
  match t.drop w with
  | [] => ([], w)
  | c :: u =>
    if c = '{' then
      match braceScan u 1 with
      | some (v, rest) => (v, w + 1 + (u.length - rest.length))
      | none => ([], w + 1 + u.length)
    else if c = '\\' then
      let ls := u.takeWhile isAlphaCh
      ('\\' :: ls, w + 1 + ls.length)
    else ([c], w + 1)

/-- Index wrapper: `parseGroup` invoked with the scan position at `startIdx`.
Returns the value and the new scan position. -/
def parseGroup (startIdx : Nat) (s : List Char) : List Char × Nat :=
  let r := parseGroupL (s.drop startIdx)
  (r.1, startIdx + r.2)

/-- Result of `parseBounds` (the `{ min, max, end }` object). -/
structure BoundsResult where
  min : List Char
  max : List Char
  endIdx : Nat
deriving DecidableEq, Repr

/-- One iteration of the `for (step = 0; step < 2; ...)` loop of `parseBounds`
(lines 713-726): skip whitespace, then dispatch on `_` / `^`.  Returns
`none` when the loop breaks (end of string or any other character), otherwise
whether the captured group is the lower bound, its value, the characters
consumed, and the remaining suffix. -/
def pbOnce (t : List Char) : Option (Bool × List Char × Nat × List Char) :=
  let w := (t.takeWhile isWs).length
  match t.drop w with
  | [] => none
  | c :: u =>
    if c = '_' then
      let r := parseGroupL u
      some (true, r.1, w + 1 + r.2, u.drop r.2)
    else if c = '^' then
      let r := parseGroupL u
      some (false, r.1, w + 1 + r.2, u.drop r.2)
    else none

/-- `parseBounds` (lines 683-732) on the suffix at the scan offset; the third
component is the number of characters consumed.  When the loop breaks, the
whitespace skipped just before the break has already been consumed (the code's
`i` advanced past it).  The `catch` branch (line 728) is unreachable in the
model: none of the string operations throw. -/
def parseBoundsL (t : List Char) : List Char × List Char × Nat :=
  match pbOnce t with
  | none => ([], [], (t.takeWhile isWs).length)
  | some (isMin, v, n, rest) =>
    let m0 : List Char := if isMin then v else []
    let x0 : List Char := if isMin then [] else v
    match pbOnce rest with
    | none => (m0, x0, n + (rest.takeWhile isWs).length)
    | some (isMin2, v2, n2, _) =>
      if isMin2 then (v2, x0, n + n2) else (m0, v2, n + n2)

/-- Index wrapper: `parseBounds(startIdx, str)`. -/
def parseBounds (startIdx : Nat) (s : List Char) : BoundsResult :=
  let r := parseBoundsL (s.drop startIdx)
  ⟨r.1, r.2.1, startIdx + r.2.2⟩

example : parseBounds 0 (S "_{0}^{1}x") = ⟨S "0", S "1", 8⟩ := by decide
example : parseBounds 0 (S "^{1}_{0}x") = ⟨S "0", S "1", 8⟩ := by decide
example : parseGroup 0 (S "\x7bab") = ([], 3) := by decide
example : parseGroup 0 (S " {a}b") = (S "a", 4) := by decide
example : parseBounds 4 (S "\\int_{0}^{1} x^{2} dx") = ⟨S "0", S "1", 12⟩ := by
  decide

/-!
## Global regex replacement

`String.prototype.replace` with a `g`-flag regex: repeatedly find the leftmost
match from the current scan position, emit the replacement, and continue
scanning after the matched span (replacements are not rescanned).  A matcher
`m` consumes the match at the head of its argument and returns the replacement
together with the remainder; every matcher used below consumes at least one
character, so a fuel of `s.length` suffices (the fuel guard never fires). -/
def gsubF (m : List Char → Option (List Char × List Char)) :
    Nat → List Char → List Char
  | 0, s => s
  | _ + 1, [] => []
  | n + 1, c :: t =>
    match m (c :: t) with
    | some (rep, rest) =>
      if rest.length ≤ t.length then rep ++ gsubF m n rest
      else c :: gsubF m n t
    | none => c :: gsubF m n t

/-- JS `s.replace(regex-with-g, ...)` driven by matcher `m`. -/
def gsub (m : List Char → Option (List Char × List Char)) (s : List Char) :
    List Char :=
  gsubF m s.length s

/-- Require the literal `lit` at the head; return the remainder. -/
def litP (lit s : List Char) : Option (List Char) :=
  if lit.isPrefixOf s then some (s.drop lit.length) else none

/-- `s.replace(/lit/g, '')` for a literal pattern. -/
def removeAllLit (lit : List Char) (s : List Char) : List Char :=
  gsub (fun t => (litP lit t).map (fun r => (([] : List Char), r))) s

/-- `s.replace(/lit\s*/g, '')` — literal followed by swallowed whitespace. -/
def removeLitWs (lit : List Char) (s : List Char) : List Char :=
  gsub (fun t => (litP lit t).map (fun r => (([] : List Char), r.dropWhile isWs))) s

/-- `s.replace(/\s+/g, ' ')`. -/
def collapseWs1 (s : List Char) : List Char :=
  gsub (fun t =>
    match t with
    | c :: u => if isWs c then some ([' '], u.dropWhile isWs) else none
    | [] => none) s

example : collapseWs1 (S "a  b \t c") = S "a b c" := by decide
example : removeLitWs (S "\\left") (S "x\\left (y") = S "x(y" := by decide

/-!
## Construct classifier (`processExpression` branch chain, lines 738-1019)

The branch chain over the normalized text `clean`: Summation (line 740),
Integral (line 755), Derivative (line 868), and the Plain fallback
(line 974).  Each branch either fully commits (sets `handled`) or falls
through; the chain is modelled as a sequence of `Option Construct` branch
functions.
-/

/-- The tagged union of §3 of the specification, carrying exactly the fields
the code extracts before it starts emitting graph directives. -/
inductive Construct where
  | plain (latex : List Char)
  | summation (latex min max : List Char)
  | integral (body dvar : List Char) (bounds : Option (List Char × List Char))
  | derivative (order : Nat) (vr body : List Char)
      (evalPoint : Option (List Char × List Char))
deriving DecidableEq, Repr

/-- Bound cleanup (lines 776-777):
`.replace(/\\left\s*/g, "").replace(/\\right\s*/g, "").trim()`. -/
def cleanBound (l : List Char) : List Char :=
  trimL (removeLitWs (S "\\right") (removeLitWs (S "\\left") l))

/-- Cleanup of the post-bounds remainder (lines 758-762):
`.trim().replace(/\\,/g,'').replace(/\\!/g,'').replace(/\s+/g,' ').trim()`. -/
def restClean (l : List Char) : List Char :=
  trimL (collapseWs1 (removeAllLit (S "\\!") (removeAllLit (S "\\,") (trimL l))))

/-- Full-suffix match of the differential pattern `\s?d\s?(\\?[a-zA-Z])$`
(line 767) at one candidate start position: optional single whitespace, the
letter `d`, optional single whitespace, an optionally escaped single letter,
end of input.  Returns the captured variable.  The greedy `\s?` needs no
backtracking: declining an available whitespace forces the next literal to
match a whitespace character, which always fails. -/
def diffAt (t : List Char) : Option (List Char) :=
  let t1 := match t with
    | c :: u => if isWs c then u else t
    | [] => t
  match t1 with
  | 'd' :: u =>
    let u1 := match u with
      | c :: v => if isWs c then v else u
      | [] => u
    match u1 with
    | ['\\', c] => if isAlphaCh c then some ['\\', c] else none
    | [c] => if isAlphaCh c then some [c] else none
    | _ => none
  | _ => none

/-- Leftmost match of the end-anchored differential pattern: the match start
index and the captured variable.  The same span is what
`rest.replace(dPattern, '')` (lines 772-773) deletes, since `dPattern` is the
same pattern with the captured variable substituted back in. -/
def findDiff : List Char → Option (Nat × List Char)
  | [] => none
  | t@(_ :: rest) =>
    match diffAt t with
    | some v => some (0, v)
    | none => (findDiff rest).map (fun r => (r.1 + 1, r.2))

/-- Summation branch (lines 740-752): `\sum` prefix, bounds at offset 4,
commit only when both bounds are non-empty. -/
def sumBranch (s : List Char) : Option Construct :=
  if (S "\\sum").isPrefixOf s then
    let b := parseBounds 4 s
    if b.min.isEmpty || b.max.isEmpty then none
    else some (.summation s b.min b.max)
  else none

/-- Integral branch (lines 755-865): `\int` prefix, bounds at offset 4,
cleaned remainder, trailing differential required; definite (bounds present)
exactly when both raw bounds are non-empty, else indefinite. -/
def intBranch (s : List Char) : Option Construct :=
  if (S "\\int").isPrefixOf s then
    let b := parseBounds 4 s
    let rest := restClean (s.drop b.endIdx)
    match findDiff rest with
    | none => none
    | some (p, vr) =>
      let body := trimL (rest.take p)
      if b.min.isEmpty || b.max.isEmpty then some (.integral body vr none)
      else some (.integral body vr (some (cleanBound b.min, cleanBound b.max)))
  else none

/-- `\s*\}` — whitespace then a closing brace. -/
def closeAfter (t : List Char) : Option (List Char) :=
  match t.dropWhile isWs with
  | '}' :: u => some u
  | _ => none

/-- The optional order group plus the closing brace of the derivative regex
(line 873): `(\^\{?([0-9]+)\}?)?\s*\}`.  Returns the captured digits (if the
group matched) and the remainder after the closing brace.  The greedy `\}?`
backtracks when taking the brace would starve the mandatory `\s*\}`, so a
brace after the digits is consumed only when a second closing brace (after
whitespace) follows it. -/
def ordGroup (t : List Char) : Option (Option (List Char) × List Char) :=
  match t with
  | '^' :: u =>
    let u1 := match u with
      | '{' :: v => v
      | _ => u
    let ds := u1.takeWhile isDigitCh
    if ds.isEmpty then none
    else
      let u2 := u1.drop ds.length
      match u2 with
      | '}' :: u3 =>
        match closeAfter u3 with
        | some r => some (some ds, r)
        | none => (closeAfter u2).map (fun r => (some ds, r))
      | _ => (closeAfter u2).map (fun r => (some ds, r))
  | _ => (closeAfter t).map (fun r => ((none : Option (List Char)), r))

/-- `\s*(.+)$` (tail of the derivative regex).  JS `.` excludes line
terminators, so the match succeeds exactly when something non-empty and free
of `\n`/`\r` remains after the greedy whitespace run; when the remainder is
all whitespace the greedy `\s*` backtracks by one character. -/
def contentOf (rest : List Char) : Option (List Char) :=
  let sp := rest.dropWhile isWs
  if sp.isEmpty then
    match rest.getLast? with
    | some c => if c = '\n' || c = '\r' then none else some [c]
    | none => none
  else if sp.any (fun c => c = '\n' || c = '\r') then none else some sp

/-- Digits to the number `parseInt` produces on them. -/
def digitsToNat (ds : List Char) : Nat :=
  ds.foldl (fun acc c => 10 * acc + (c.toNat - '0'.toNat)) 0

/-- `\s*\{` — whitespace then an opening brace. -/
def expectBraceWs (t : List Char) : Option (List Char) :=
  match t.dropWhile isWs with
  | '{' :: u => some u
  | _ => none

/-- `\s*d` — whitespace then the literal letter `d`. -/
def expectDWs (t : List Char) : Option (List Char) :=
  match t.dropWhile isWs with
  | 'd' :: u => some u
  | _ => none

/-- `\s*(\\?[a-zA-Z]+)` — the differentiation-variable capture of the
derivative regex. -/
def varCapture (t : List Char) : Option (List Char × List Char) :=
  match t.dropWhile isWs with
  | '\\' :: u =>
    let ls := u.takeWhile isAlphaCh
    if ls.isEmpty then none else some ('\\' :: ls, u.drop ls.length)
  | u =>
    let ls := u.takeWhile isAlphaCh
    if ls.isEmpty then none else some (ls, u.drop ls.length)

/-- The derivative regex (line 873)
`^\\frac\s*\{\s*d(\^\{?([0-9]+)\}?)?\s*\}\s*\{\s*d\s*(\\?[a-zA-Z]+)(\^\{?([0-9]+)\}?)?\s*\}\s*(.+)$`
as a deterministic parser: yields `(order, variable, content)` — groups 2
(defaulted to 1 by line 877), 3 and 6. -/
def derivParse (s : List Char) : Option (Nat × List Char × List Char) :=
  (litP (S "\\frac") s).bind fun r1 =>
  (expectBraceWs r1).bind fun r2 =>
  (expectDWs r2).bind fun r3 =>
  (ordGroup r3).bind fun q4 =>
  (expectBraceWs q4.2).bind fun r5 =>
  (expectDWs r5).bind fun r6 =>
  (varCapture r6).bind fun q8 =>
  (ordGroup q8.2).bind fun q9 =>
  (contentOf q9.2).bind fun content =>
  some ((q4.1.map digitsToNat).getD 1, q8.1, content)

/-- `content.replace(/\\placeholder\{[^}]*\}/g, '')` (line 882). -/
def removePlaceholder (s : List Char) : List Char :=
  gsub (fun t => do
    let r ← litP (S "\\placeholder\x7b") t
    let r2 := r.dropWhile (fun c => c ≠ '}')
    match r2 with
    | '}' :: u => some (([] : List Char), u)
    | _ => none) s

/-- Start index of the last occurrence of `pat` (JS `lastIndexOf`). -/
def lastIndexOfSub (pat s : List Char) : Option Nat :=
  (List.range (s.length + 1)).foldl
    (fun acc i => if pat.isPrefixOf (s.drop i) then some i else acc) none

/-- `.replace(/^\\/, '')` — strip one leading backslash. -/
def stripLeadBS (l : List Char) : List Char :=
  match l with
  | '\\' :: t => t
  | _ => l

/-- Evaluation-point extraction from the derivative body (lines 884-903):
locate the rightmost `|_{`, require the (trimmed) content to end in `}`,
split the suffix interior on `=`, and accept only when it splits into exactly
two parts whose bound variable — after stripping a leading backslash from both
sides — equals the differentiation variable.  Returns the final `body` and the
optional `(variable, value)` pair. -/
def extractEval (vr content : List Char) :
    List Char × Option (List Char × List Char) :=
  match lastIndexOfSub (S "|_\x7b") content with
  | none => (content, none)
  | some barIndex =>
    if (trimL content).getLast? = some '}' then
      let possibleBody := trimL (content.take barIndex)
      let evalPart := (content.drop (barIndex + 3)).take
        (content.length - 1 - (barIndex + 3))
      let parts := evalPart.splitOn '='
      let cleanVar := stripLeadBS vr
      match parts with
      | [p0, p1] =>
        let evalVar := stripLeadBS (trimL p0)
        if evalVar = cleanVar then (possibleBody, some (evalVar, trimL p1))
        else (content, none)
      | _ => (content, none)
    else (content, none)

/-- Derivative branch (lines 868-967): `\frac` prefix, the derivative regex,
placeholder cleanup, then evaluation-point extraction. -/
def derivBranch (s : List Char) : Option Construct :=
  if (S "\\frac").isPrefixOf s then
    match derivParse s with
    | none => none
    | some (order, vr, content0) =>
      let content := trimL (removePlaceholder content0)
      let (body, ep) := extractEval vr content
      some (.derivative order vr body ep)
  else none

/-- `classify`: the full branch chain with the Plain fallback (line 974).
Total and deterministic by construction. -/
def classify (s : List Char) : Construct :=
  match sumBranch s with
  | some c => c
  | none =>
    match intBranch s with
    | some c => c
    | none =>
      match derivBranch s with
      | some c => c
      | none => .plain s

example : classify (S "\\int_{0}^{1} x^{2} dx") =
    .integral (S "x^{2}") (S "x") (some (S "0", S "1")) := by decide
example : classify (S "\\int x^{2} dx") =
    .integral (S "x^{2}") (S "x") none := by decide
example : classify (S "\\frac{d}{dx}x^{2}") =
    .derivative 1 (S "x") (S "x^{2}") none := by decide
example : classify (S "\\frac{d}{dx}x^{2}|_{x=3}") =
    .derivative 1 (S "x") (S "x^{2}") (some (S "x", S "3")) := by decide
example : classify (S "\\frac{d}{dx}x^{2}|_{t=3}") =
    .derivative 1 (S "x") (S "x^{2}|_{t=3}") none := by decide
example : classify (S "\\frac{d^{2}}{dx^{2}}x^{3}") =
    .derivative 2 (S "x") (S "x^{3}") none := by decide
example : classify (S "\\frac{d}{dx}") = .plain (S "\\frac{d}{dx}") := by decide
example : classify (S "") = .plain [] := by decide
example : classify (S "x+1") = .plain (S "x+1") := by decide
example : classify (S "\\sum_{n=1}^{5}n") =
    .summation (S "\\sum_{n=1}^{5}n") (S "n=1") (S "5") := by decide

/-!
## Algebra-dialect translator (`latexToNerdamer`, `latex-parser.ts` lines 5-175)

Each `.replace` pass of the source, in source order, as a `gsub` over a
deterministic matcher.  The file's duplicated older copy of the function
(after the separator) is historical noise per §9 of the specification; the
first, feature-complete copy is embedded.
-/

/-- Require the single character `c` at the head. -/
def expectCh (c : Char) (t : List Char) : Option (List Char) :=
  match t with
  | x :: u => if x = c then some u else none
  | [] => none

/-- `s.replace(/lit/g, rep)` for a literal pattern. -/
def replaceAllLit (lit rep s : List Char) : List Char :=
  gsub (fun t => (litP lit t).map (fun r => (rep, r))) s

/-- `s.replace(/\s+/g, '')`. -/
def removeWsAll (s : List Char) : List Char :=
  gsub (fun t =>
    match t with
    | c :: u => if isWs c then some (([] : List Char), u.dropWhile isWs) else none
    | [] => none) s

/-- `\\frac\s*\{([^{}]*)\}\s*\{([^{}]*)\}` → `($1)/($2)`. -/
def mFrac (t : List Char) : Option (List Char × List Char) := do
  let r ← litP (S "\\frac") t
  let r ← expectCh '{' (r.dropWhile isWs)
  let c1 := r.takeWhile (fun c => c ≠ '{' && c ≠ '}')
  let r ← expectCh '}' (r.drop c1.length)
  let r ← expectCh '{' (r.dropWhile isWs)
  let c2 := r.takeWhile (fun c => c ≠ '{' && c ≠ '}')
  let r ← expectCh '}' (r.drop c2.length)
  some ('(' :: c1 ++ ')' :: '/' :: '(' :: c2 ++ [')'], r)

/-- `\\sqrt\s*\{([^{}]*)\}` → `sqrt($1)`. -/
def mSqrt (t : List Char) : Option (List Char × List Char) := do
  let r ← litP (S "\\sqrt") t
  let r ← expectCh '{' (r.dropWhile isWs)
  let c1 := r.takeWhile (fun c => c ≠ '{' && c ≠ '}')
  let r ← expectCh '}' (r.drop c1.length)
  some (S "sqrt(" ++ c1 ++ [')'], r)

/-- `\\sqrt\s*\[([^\]]*)\]\s*\{([^{}]*)\}` → `($2)^(1/($1))`. -/
def mRoot (t : List Char) : Option (List Char × List Char) := do
  let r ← litP (S "\\sqrt") t
  let r ← expectCh '[' (r.dropWhile isWs)
  let c1 := r.takeWhile (fun c => c ≠ ']')
  let r ← expectCh ']' (r.drop c1.length)
  let r ← expectCh '{' (r.dropWhile isWs)
  let c2 := r.takeWhile (fun c => c ≠ '{' && c ≠ '}')
  let r ← expectCh '}' (r.drop c2.length)
  some ('(' :: c2 ++ S ")^(1/(" ++ c1 ++ S "))", r)

/-- `\^\{([^{}]*)\}` → `^($1)`. -/
def mPow (t : List Char) : Option (List Char × List Char) := do
  let r ← expectCh '^' t
  let r ← expectCh '{' r
  let c1 := r.takeWhile (fun c => c ≠ '{' && c ≠ '}')
  let r ← expectCh '}' (r.drop c1.length)
  some ('^' :: '(' :: c1 ++ [')'], r)

/-- `_\{[^{}]*\}` → removed. -/
def mSubBrace (t : List Char) : Option (List Char × List Char) := do
  let r ← expectCh '_' t
  let r ← expectCh '{' r
  let c1 := r.takeWhile (fun c => c ≠ '{' && c ≠ '}')
  let r ← expectCh '}' (r.drop c1.length)
  some (([] : List Char), r)

/-- `_[a-zA-Z0-9]` → removed. -/
def mSubTok (t : List Char) : Option (List Char × List Char) := do
  let r ← expectCh '_' t
  match r with
  | c :: u => if isAlnumCh c then some (([] : List Char), u) else none
  | [] => none

/-- `\|([^|]+)\|` → `abs($1)`. -/
def mAbsPipe (t : List Char) : Option (List Char × List Char) := do
  let r ← expectCh '|' t
  let c1 := r.takeWhile (fun c => c ≠ '|')
  if c1.isEmpty then none
  else do
    let r ← expectCh '|' (r.drop c1.length)
    some (S "abs(" ++ c1 ++ [')'], r)

/-- `([a-zA-Z0-9])e\^` → `$1*e^`. -/
def mXe (t : List Char) : Option (List Char × List Char) :=
  match t with
  | a :: 'e' :: '^' :: u =>
    if isAlnumCh a then some ([a, '*', 'e', '^'], u) else none
  | _ => none

/-- `([a-zA-Z0-9])(\\[a-zA-Z]+)` → `$1*$2`. -/
def mXcmd (t : List Char) : Option (List Char × List Char) :=
  match t with
  | a :: '\\' :: u =>
    if isAlnumCh a then
      let ls := u.takeWhile isAlphaCh
      if ls.isEmpty then none
      else some (a :: '*' :: '\\' :: ls, u.drop ls.length)
    else none
  | _ => none

/-- The six trig names of the `(sin|cos|tan|cot|sec|csc)` alternation. -/
def trigNames : List (List Char) :=
  [S "sin", S "cos", S "tan", S "cot", S "sec", S "csc"]

/-- Match `\\(sin|cos|tan|cot|sec|csc)`; returns the name and the remainder. -/
def trigAlt (t : List Char) : Option (List Char × List Char) :=
  match t with
  | '\\' :: u =>
    trigNames.findSome? (fun n =>
      if n.isPrefixOf u then some (n, u.drop n.length) else none)
  | _ => none

/-- `\\(sin|…)\^\{([^}]+)\}([a-zA-Z])` → `($1($3))^($2)`. -/
def mTrigPowBraceVar (t : List Char) : Option (List Char × List Char) := do
  let (n, r) ← trigAlt t
  let r ← expectCh '^' r
  let r ← expectCh '{' r
  let c1 := r.takeWhile (fun c => c ≠ '}')
  if c1.isEmpty then none
  else do
    let r ← expectCh '}' (r.drop c1.length)
    match r with
    | v :: u =>
      if isAlphaCh v then
        some ('(' :: n ++ '(' :: v :: S "))^(" ++ c1 ++ [')'], u)
      else none
    | [] => none

/-- `\\(sin|…)\^(\d+)([a-zA-Z])` → `($1($3))^$2`. -/
def mTrigPowVar (t : List Char) : Option (List Char × List Char) := do
  let (n, r) ← trigAlt t
  let r ← expectCh '^' r
  let ds := r.takeWhile isDigitCh
  if ds.isEmpty then none
  else
    match r.drop ds.length with
    | v :: u =>
      if isAlphaCh v then
        some ('(' :: n ++ '(' :: v :: S "))^" ++ ds, u)
      else none
    | [] => none

/-- `\\(sin|…)\^\{([^}]+)\}\s*\(([^)]+)\)` → `($1($3))^($2)`. -/
def mTrigPowBraceParen (t : List Char) : Option (List Char × List Char) := do
  let (n, r) ← trigAlt t
  let r ← expectCh '^' r
  let r ← expectCh '{' r
  let c1 := r.takeWhile (fun c => c ≠ '}')
  if c1.isEmpty then none
  else do
    let r ← expectCh '}' (r.drop c1.length)
    let r ← expectCh '(' (r.dropWhile isWs)
    let c2 := r.takeWhile (fun c => c ≠ ')')
    if c2.isEmpty then none
    else do
      let r ← expectCh ')' (r.drop c2.length)
      some ('(' :: n ++ '(' :: c2 ++ S "))^(" ++ c1 ++ [')'], r)

/-- `\\(sin|…)\^(\d+)\s*\(([^)]+)\)` → `($1($3))^$2`. -/
def mTrigPowParen (t : List Char) : Option (List Char × List Char) := do
  let (n, r) ← trigAlt t
  let r ← expectCh '^' r
  let ds := r.takeWhile isDigitCh
  if ds.isEmpty then none
  else do
    let r ← expectCh '(' ((r.drop ds.length).dropWhile isWs)
    let c2 := r.takeWhile (fun c => c ≠ ')')
    if c2.isEmpty then none
    else do
      let r ← expectCh ')' (r.drop c2.length)
      some ('(' :: n ++ '(' :: c2 ++ S "))^" ++ ds, r)

/-- `\\cmd\s*\(([^)]+)\)` → `out($1)`. -/
def mFnParen (cmd out : List Char) (t : List Char) :
    Option (List Char × List Char) := do
  let r ← litP cmd t
  let r ← expectCh '(' (r.dropWhile isWs)
  let c1 := r.takeWhile (fun c => c ≠ ')')
  if c1.isEmpty then none
  else do
    let r ← expectCh ')' (r.drop c1.length)
    some (out ++ '(' :: c1 ++ [')'], r)

/-- `\\cmd\s+([a-zA-Z])` → `out($1)`. -/
def mFnSpace (cmd out : List Char) (t : List Char) :
    Option (List Char × List Char) := do
  let r ← litP cmd t
  match r with
  | c :: u =>
    if isWs c then
      match u.dropWhile isWs with
      | v :: u2 =>
        if isAlphaCh v then some (out ++ '(' :: v :: [')'], u2) else none
      | [] => none
    else none
  | [] => none

/-- `\\cmd([a-zA-Z])` → `out($1)`. -/
def mFnLetter (cmd out : List Char) (t : List Char) :
    Option (List Char × List Char) := do
  let r ← litP cmd t
  match r with
  | v :: u => if isAlphaCh v then some (out ++ '(' :: v :: [')'], u) else none
  | [] => none

/-- `\\(sin|…)([a-zA-Z])` → `$1($2)`. -/
def mTrigLetter (t : List Char) : Option (List Char × List Char) := do
  let (n, r) ← trigAlt t
  match r with
  | v :: u => if isAlphaCh v then some (n ++ '(' :: v :: [')'], u) else none
  | [] => none

/-- `\\(sin|…)\s*` → `$1`. -/
def mTrigBare (t : List Char) : Option (List Char × List Char) := do
  let (n, r) ← trigAlt t
  some (n, r.dropWhile isWs)

/-- `\\ln\s*$` → `log` (anchored at end of input). -/
def mLnEnd (t : List Char) : Option (List Char × List Char) := do
  let r ← litP (S "\\ln") t
  if (r.dropWhile isWs).isEmpty then some (S "log", ([] : List Char)) else none

/-- JS word-character class (`\w`), used for `\b`. -/
def isWordCh (c : Char) : Bool :=
  isAlnumCh c || c = '_'

/-- `\\cmd\b` → `out`. -/
def mCmdBoundary (cmd out : List Char) (t : List Char) :
    Option (List Char × List Char) := do
  let r ← litP cmd t
  match r with
  | c :: _ => if isWordCh c then none else some (out, r)
  | [] => some (out, ([] : List Char))

/-- `\\exp\s*` → `exp`. -/
def mExpBare (t : List Char) : Option (List Char × List Char) := do
  let r ← litP (S "\\exp") t
  some (S "exp", r.dropWhile isWs)

/-- `e\^\(([^)]+)\)` → `exp($1)`. -/
def mEParen (t : List Char) : Option (List Char × List Char) :=
  match t with
  | 'e' :: '^' :: '(' :: r =>
    let c1 := r.takeWhile (fun c => c ≠ ')')
    if c1.isEmpty then none
    else
      (expectCh ')' (r.drop c1.length)).map
        (fun r2 => (S "exp(" ++ c1 ++ [')'], r2))
  | _ => none

/-- `e\^([a-zA-Z])(?![a-zA-Z0-9])` → `exp($1)`. -/
def mELetter (t : List Char) : Option (List Char × List Char) :=
  match t with
  | 'e' :: '^' :: v :: r =>
    if isAlphaCh v && !(match r with | c :: _ => isAlnumCh c | [] => false) then
      some (S "exp(" ++ v :: [')'], r)
    else none
  | _ => none

/-- `e\^(\d+)(?![a-zA-Z0-9])` → `exp($1)`.  The digit run is maximal, so the
lookahead can only be defeated by a letter; shorter runs are then followed by
a digit and fail too, so the whole match fails — no backtracking needed. -/
def mEDigits (t : List Char) : Option (List Char × List Char) :=
  match t with
  | 'e' :: '^' :: r =>
    let ds := r.takeWhile isDigitCh
    if ds.isEmpty then none
    else
      let r2 := r.drop ds.length
      if (match r2 with | c :: _ => isAlphaCh c | [] => false) then none
      else some (S "exp(" ++ ds ++ [')'], r2)
  | _ => none

/-- The function-name whitelist of the implicit-multiplication pass. -/
def funcNames : List (List Char) :=
  [S "sin", S "cos", S "tan", S "cot", S "sec", S "csc", S "log", S "log10",
   S "exp", S "sqrt", S "abs", S "asin", S "acos", S "atan"]

/-- `isEndOfFunction(str, pos)` (lines 124-134). -/
def isEndOfFunction (expr : List Char) (pos : Nat) : Bool :=
  funcNames.any (fun fn =>
    pos + 1 ≥ fn.length &&
      ((expr.drop (pos + 1 - fn.length)).take fn.length == fn))

/-- The insertion decision of the scan loop (lines 143-161) for the character
`c` at position `i ≥ 1` with predecessor `prev`.  The chain branches on the
*character class of `c`* first, exactly as the source's if/else-if chain
does: the `char === '('` test of the first branch captures every parenthesis
at `i > 0` (inserting only after an alphanumeric non-function-end
predecessor), so the source's later `)(`-insertion arm can never be reached
and a parenthesis following `)` gets no star. -/
def insertStar (expr : List Char) (i : Nat) (c prev : Char) : Bool :=
  if c = '(' then isAlnumCh prev && !isEndOfFunction expr (i - 1)
  else if isAlphaCh c then prev = ')' || isDigitCh prev
  else if isDigitCh c then prev = ')'
  else false

/-- The implicit-multiplication insertion loop (lines 137-164). -/
def insertMult (expr : List Char) : List Char :=
  ((List.range expr.length).map (fun i =>
    let c := expr.getD i ' '
    if i = 0 then [c]
    else if insertStar expr i c (expr.getD (i - 1) ' ') then ['*', c]
    else [c])).flatten

/-- `result.replace(/\*\*/g, '*')` (line 167): leftmost pair collapsed, scan
resumes after the replacement. -/
def collapseStars : List Char → List Char
  | [] => []
  | [c] => [c]
  | c :: d :: t =>
    if c = '*' then
      if d = '*' then '*' :: collapseStars t
      else c :: collapseStars (d :: t)
    else c :: collapseStars (d :: t)

/-- Strip one leading `*` (lines 170-172). -/
def stripLeadStar (l : List Char) : List Char :=
  match l with
  | [] => []
  | c :: t => if c = '*' then t else c :: t

/-- Everything up to and including the insertion loop: the string the final
cleanup (lines 166-172) receives. -/
def nerdPre (latex : List Char) : List Char :=
  let e := removeLitWs (S "\\left") latex
  let e := removeLitWs (S "\\right") e
  let e := replaceAllLit (S "\\cdot") (S "*") e
  let e := replaceAllLit (S "\\times") (S "*") e
  let e := gsub mFrac e
  let e := gsub mSqrt e
  let e := gsub mRoot e
  let e := gsub mPow e
  let e := gsub mSubBrace e
  let e := gsub mSubTok e
  let e := gsub mAbsPipe e
  let e := replaceAllLit (S "\\pi") (S "pi") e
  let e := gsub mXe e
  let e := gsub mXcmd e
  let e := gsub mTrigPowBraceVar e
  let e := gsub mTrigPowVar e
  let e := gsub mTrigPowBraceParen e
  let e := gsub mTrigPowParen e
  let e := gsub (mFnParen (S "\\sin") (S "sin")) e
  let e := gsub (mFnParen (S "\\cos") (S "cos")) e
  let e := gsub (mFnParen (S "\\tan") (S "tan")) e
  let e := gsub (mFnParen (S "\\cot") (S "cot")) e
  let e := gsub (mFnParen (S "\\sec") (S "sec")) e
  let e := gsub (mFnParen (S "\\csc") (S "csc")) e
  let e := gsub (mFnParen (S "\\arcsin") (S "asin")) e
  let e := gsub (mFnParen (S "\\arccos") (S "acos")) e
  let e := gsub (mFnParen (S "\\arctan") (S "atan")) e
  let e := gsub (mFnSpace (S "\\sin") (S "sin")) e
  let e := gsub (mFnSpace (S "\\cos") (S "cos")) e
  let e := gsub (mFnSpace (S "\\tan") (S "tan")) e
  let e := gsub (mFnSpace (S "\\cot") (S "cot")) e
  let e := gsub (mFnSpace (S "\\sec") (S "sec")) e
  let e := gsub (mFnSpace (S "\\csc") (S "csc")) e
  let e := gsub mTrigLetter e
  let e := gsub mTrigBare e
  let e := gsub (mFnParen (S "\\ln") (S "log")) e
  let e := gsub (mFnSpace (S "\\ln") (S "log")) e
  let e := gsub (mFnLetter (S "\\ln") (S "log")) e
  let e := gsub mLnEnd e
  let e := gsub (mCmdBoundary (S "\\ln") (S "log")) e
  let e := gsub (mFnParen (S "\\log") (S "log10")) e
  let e := gsub (mFnSpace (S "\\log") (S "log10")) e
  let e := gsub (mFnLetter (S "\\log") (S "log10")) e
  let e := gsub (mCmdBoundary (S "\\log") (S "log10")) e
  let e := gsub (mFnParen (S "\\exp") (S "exp")) e
  let e := gsub mExpBare e
  let e := gsub mEParen e
  let e := gsub mELetter e
  let e := gsub mEDigits e
  let e := removeAllLit (S "\\") e
  let e := removeWsAll e
  insertMult e

/-- `latexToNerdamer` (`latex-parser.ts` lines 5-175). -/
def latexToNerdamer (latex : List Char) : List Char :=
  stripLeadStar (collapseStars (nerdPre latex))

example : latexToNerdamer (S "\\sin^2x") = S "(sin(x))^2" := by decide
example : latexToNerdamer (S "\\sin^2(x)") = S "(sin(x))^2" := by decide
example : latexToNerdamer (S "\\sin^{2}x") = S "sin^(2)*x" := by decide
example : latexToNerdamer (S "\\sin^{2}(x)") = S "sin^(2)(x)" := by decide
example : latexToNerdamer (S "\\sin^2 x") = S "sin^2*x" := by decide
example : latexToNerdamer (S "xe^{-2x}") = S "x*exp(-2*x)" := by decide
example : latexToNerdamer (S "\\frac{x}{2}+\\pi") = S "(x)/(2)+pi" := by decide
example : latexToNerdamer (S "a****a") = S "a**a" := by decide
example : latexToNerdamer (S "***a") = S "*a" := by decide

/-!
## Absolute-value rewriter (`useExpressionLogic.ts` lines 620-672)

The named-operator regex passes (lines 623-633) followed by the bare-pipe
scanner `convertSimplePipes` (lines 635-672).  The scanner checks whether a
pipe is part of an already-canonical `\left|`/`\right|` by looking at the six
characters before it in the *original* string, so the core recursion carries
the reversed prefix alongside the remaining suffix.
-/

/-- `"\left"` reversed — the shape `before.endsWith('\\left')` looks for. -/
def revLeft : List Char := ['t', 'f', 'e', 'l', '\\']

/-- `"\right"` reversed. -/
def revRight : List Char := ['t', 'h', 'g', 'i', 'r', '\\']

/-- Is the pipe whose (reversed) prefix is `rev` part of a canonical bar
(lines 640-641, 650-651)?  `endsWith` on the six-character window equals a
prefix test on the reversed prefix, the window being long enough for both
patterns. -/
def pipeSkippable (rev : List Char) : Bool :=
  rev.take 5 == revLeft || rev.take 6 == revRight

/-- The closing-bar search (lines 646-656): the first subsequent pipe that is
not part of a canonical bar closes the pair.  Returns the span before the
closing bar and the remainder after it.  The depth counter of the source only
ever decrements, so the first such pipe always closes. -/
def findClose (rev : List Char) : List Char → Option (List Char × List Char)
  | [] => none
  | c :: t =>
    if c = '|' && !pipeSkippable rev then some ([], t)
    else (findClose (c :: rev) t).map (fun p => (c :: p.1, p.2))

/-- `convertSimplePipes`'s scan loop (lines 636-669), carrying the reversed
already-scanned prefix of the *original* string (the window checks read the
original string, and after a conversion the scan resumes past the closing bar
with the original prefix).  The loop advances at least one character per
iteration, so it is driven by a fuel bounded below by the remaining length;
`cvtAuxF_fuel` shows the fuel value is irrelevant beyond that bound. -/
def cvtAuxF : Nat → List Char → List Char → List Char
  | 0, _, l => l
  | _ + 1, _, [] => []
  | n + 1, rev, c :: t =>
    if c = '|' then
      if pipeSkippable rev then c :: cvtAuxF n (c :: rev) t
      else
        match findClose ('|' :: rev) t with
        | some (content, rest) =>
          S "\\left|" ++ content ++ S "\\right|" ++
            cvtAuxF n ('|' :: content.reverse ++ '|' :: rev) rest
        | none => c :: cvtAuxF n (c :: rev) t
    else c :: cvtAuxF n (c :: rev) t

/-- The scan loop at its natural fuel. -/
def cvtAux (rev l : List Char) : List Char :=
  cvtAuxF l.length rev l

/-- `convertSimplePipes` (lines 635-671). -/
def convertSimplePipes (s : List Char) : List Char := cvtAux [] s

example : convertSimplePipes (S "|x-1|") = S "\\left|x-1\\right|" := by decide
example : convertSimplePipes (S "\\left|a\\right|") = S "\\left|a\\right|" := by
  decide
example : convertSimplePipes (S "x|y") = S "x|y" := by decide

/-- Lazy capture: the shortest run of characters none of which satisfies
`bad`, ending where the literal `stop` begins; returns the run and the
remainder after `stop`. -/
def lazyUntil (stop : List Char) (bad : Char → Bool) :
    List Char → Option (List Char × List Char)
  | [] => none
  | c :: t =>
    if stop.isPrefixOf (c :: t) then some ([], (c :: t).drop stop.length)
    else if bad c then none
    else (lazyUntil stop bad t).map (fun p => (c :: p.1, p.2))

/-- `\mathrm\{\\?abs\}` — the optionally escaped operator name of the first
three passes.  When the optional backslash is present `abs}` must follow it,
otherwise the regex backtracks onto the brace and fails anyway. -/
def mathrmAbsHead (t : List Char) : Option (List Char) :=
  (litP (S "\\mathrm\x7b") t).bind fun r =>
    match r with
    | '\\' :: u => litP (S "abs\x7d") u
    | u => litP (S "abs\x7d") u

/-- `\\mathrm\{\\?abs\}\s*\\left\(([^)]*?)\\right\)` → `\left|$1\right|`. -/
def mAbs1 (t : List Char) : Option (List Char × List Char) :=
  (mathrmAbsHead t).bind fun r =>
  (litP (S "\\left(") (r.dropWhile isWs)).bind fun r2 =>
  (lazyUntil (S "\\right)") (fun c => c = ')') r2).bind fun q =>
  some (S "\\left|" ++ q.1 ++ S "\\right|", q.2)

/-- `\\mathrm\{\\?abs\}\s*\(([^)]*?)\)` → `\left|$1\right|`. -/
def mAbs2 (t : List Char) : Option (List Char × List Char) :=
  (mathrmAbsHead t).bind fun r =>
  (expectCh '(' (r.dropWhile isWs)).bind fun r2 =>
  (lazyUntil [')'] (fun c => c = ')') r2).bind fun q =>
  some (S "\\left|" ++ q.1 ++ S "\\right|", q.2)

/-- `\\mathrm\{\\?abs\}\s*\{([^}]*?)\}` → `\left|$1\right|`. -/
def mAbs3 (t : List Char) : Option (List Char × List Char) :=
  (mathrmAbsHead t).bind fun r =>
  (expectCh '{' (r.dropWhile isWs)).bind fun r2 =>
  (lazyUntil ['}'] (fun c => c = '}') r2).bind fun q =>
  some (S "\\left|" ++ q.1 ++ S "\\right|", q.2)

/-- `\\operatorname\{abs\}\s*\\left\(([^)]*?)\\right\)` → `\left|$1\right|`. -/
def mAbs4 (t : List Char) : Option (List Char × List Char) :=
  (litP (S "\\operatorname\x7babs\x7d") t).bind fun r =>
  (litP (S "\\left(") (r.dropWhile isWs)).bind fun r2 =>
  (lazyUntil (S "\\right)") (fun c => c = ')') r2).bind fun q =>
  some (S "\\left|" ++ q.1 ++ S "\\right|", q.2)

/-- `\\operatorname\{abs\}\s*\(([^)]*?)\)` → `\left|$1\right|`. -/
def mAbs5 (t : List Char) : Option (List Char × List Char) :=
  (litP (S "\\operatorname\x7babs\x7d") t).bind fun r =>
  (expectCh '(' (r.dropWhile isWs)).bind fun r2 =>
  (lazyUntil [')'] (fun c => c = ')') r2).bind fun q =>
  some (S "\\left|" ++ q.1 ++ S "\\right|", q.2)

/-- `\\vert\s*([^\\]*?)\\vert` → `\left|$1\right|`. -/
def mVertPair (t : List Char) : Option (List Char × List Char) :=
  (litP (S "\\vert") t).bind fun r =>
  (lazyUntil (S "\\vert") (fun c => c = '\\') (r.dropWhile isWs)).bind fun q =>
  some (S "\\left|" ++ q.1 ++ S "\\right|", q.2)

/-- `\\abs\s*\{([^}]*)\}` → `\left|$1\right|`. -/
def mAbsBrace (t : List Char) : Option (List Char × List Char) :=
  (litP (S "\\abs") t).bind fun r =>
  (expectCh '{' (r.dropWhile isWs)).bind fun r2 =>
  (expectCh '}' (r2.drop (r2.takeWhile (fun c => c ≠ '}')).length)).bind
    fun r3 =>
  some (S "\\left|" ++ r2.takeWhile (fun c => c ≠ '}') ++ S "\\right|", r3)

/-- `s.replace(/lit\s*/g, rep)` — literal plus swallowed whitespace replaced. -/
def replaceLitWs (lit rep : List Char) (s : List Char) : List Char :=
  gsub (fun t => (litP lit t).map (fun r => (rep, r.dropWhile isWs))) s

/-- The regex passes of the rewriter (lines 623-633), in source order. -/
def absRegexPasses (s : List Char) : List Char :=
  let e := gsub mAbs1 s
  let e := gsub mAbs2 e
  let e := gsub mAbs3 e
  let e := gsub mAbs4 e
  let e := gsub mAbs5 e
  let e := replaceLitWs (S "\\left\\vert") (S "\\left|") e
  let e := replaceLitWs (S "\\right\\vert") (S "\\right|") e
  let e := replaceLitWs (S "\\lvert") (S "\\left|") e
  let e := replaceLitWs (S "\\rvert") (S "\\right|") e
  let e := gsub mVertPair e
  let e := gsub mAbsBrace e
  e

/-- The full absolute-value rewriter: the regex passes followed by the
bare-pipe scan (lines 623-672). -/
def rewriteAbs (s : List Char) : List Char :=
  convertSimplePipes (absRegexPasses s)

example : rewriteAbs (S "|x-1|") = S "\\left|x-1\\right|" := by decide
example : rewriteAbs (S "\\operatorname{abs}(x-1)") = S "\\left|x-1\\right|" := by
  decide
example : rewriteAbs (S "\\lvert x-1\\rvert") = S "\\left|x-1\\right|" := by
  decide
example : rewriteAbs (S "\\mathrm{abs}(\\mathrm{abs}(x))") =
    S "\\left|\\mathrm{abs}(x\\right|)" := by decide
example : rewriteAbs (S "\\left|\\mathrm{abs}(x\\right|)") =
    S "\\left|\\left|x\\right|\\right|" := by decide

/-!
## Predicates used by the claim statements
-/

/-- The brace scan started just inside `u` (depth 1) never returns to depth
zero: on every prefix the closing braces never outnumber the opening ones. -/
def unbalancedFrom (u : List Char) : Bool :=
  (List.range (u.length + 1)).all
    (fun j => ((u.take j).count '}') ≤ ((u.take j).count '{'))

/-- Brace-balanced text: no prefix closes more than it opens, and the braces
cancel out overall — exactly the texts a brace group can carry verbatim. -/
def balancedB (u : List Char) : Bool :=
  unbalancedFrom u && (u.count '{' == u.count '}')

/-- No spelling that the absolute-value regex passes can fire on occurs in
`s`: none of `\mathrm{abs}`, `\operatorname{abs}`, `\vert`, `\lvert`,
`\rvert`, `\abs` (the last also covers `\mathrm{\abs}`). -/
def noAbsResidue (s : List Char) : Bool :=
  !containsSub (S "\\mathrm\x7babs\x7d") s &&
  !containsSub (S "\\operatorname\x7babs\x7d") s &&
  !containsSub (S "\\vert") s &&
  !containsSub (S "\\lvert") s &&
  !containsSub (S "\\rvert") s &&
  !containsSub (S "\\abs") s

/-- Two reversed-prefix contexts agree as far as the six-character window
check of `pipeSkippable` can see: either their first six characters coincide,
or they share a prefix of at most five characters followed by a bar on both
sides — a bar that defeats both window patterns, `\left` and `\right`
containing no bar.  This is the simulation invariant relating the rescan of
`convertSimplePipes`'s output to the original scan. -/
def AgreeW (r r' : List Char) : Prop :=
  r.take 6 = r'.take 6 ∨
    ∃ p a b, p.length ≤ 5 ∧ r = p ++ '|' :: a ∧ r' = p ++ '|' :: b

/-- Every bar in the scanned text is part of a canonical `\left|`/`\right|`
in its context — the invariant of the span a closing-bar search walked over
without stopping. -/
def AllSkippable : List Char → List Char → Prop
  | _, [] => True
  | rev, c :: t =>
    (c = '|' → pipeSkippable rev = true) ∧ AllSkippable (c :: rev) t

/-- `"\left|"` reversed: the context just after scanning a canonical opener. -/
def revLB : List Char := '|' :: revLeft

/-- `"\right|"` reversed: the context just after scanning a canonical
closer. -/
def revRB : List Char := '|' :: revRight

/-!
## Basic lemmas about the string utilities
-/

theorem drop_length_takeWhile (p : Char → Bool) (l : List Char) :
    l.drop ((l.takeWhile p).length) = l.dropWhile p := by
  induction l with
  | nil => rfl
  | cons c t ih =>
    by_cases hp : p c
    · simp [List.takeWhile_cons, List.dropWhile_cons, hp, ih]
    · simp [List.takeWhile_cons, List.dropWhile_cons, hp]

theorem length_takeWhile_add (p : Char → Bool) (l : List Char) :
    (l.takeWhile p).length + (l.dropWhile p).length = l.length := by
  conv_rhs => rw [← List.takeWhile_append_dropWhile (p := p) (l := l)]
  rw [List.length_append]

theorem containsSub_iff_infix {p s : List Char} :
    containsSub p s = true ↔ p <:+: s := by
  constructor
  · intro h
    rw [containsSub, List.any_eq_true] at h
    obtain ⟨t, ht, hp⟩ := h
    rw [List.mem_tails] at ht
    exact (List.IsPrefix.isInfix (List.isPrefixOf_iff_prefix.mp hp)).trans
      ht.isInfix
  · intro h
    obtain ⟨l, r, rfl⟩ := h
    rw [containsSub, List.any_eq_true]
    refine ⟨p ++ r, ?_, ?_⟩
    · rw [List.mem_tails]
      exact ⟨l, by simp⟩
    · exact List.isPrefixOf_iff_prefix.mpr ⟨r, rfl⟩

theorem not_infix_of_containsSub_false {p s : List Char}
    (h : containsSub p s = false) : ¬ p <:+: s := by
  intro hi
  rw [← containsSub_iff_infix] at hi
  rw [h] at hi
  cases hi

/-!
## Lemmas about `findClose` and the `cvtAux` scan
-/

theorem findClose_eq {rev l : List Char} {p rest : List Char}
    (h : findClose rev l = some (p, rest)) : l = p ++ '|' :: rest := by
  induction l generalizing rev p rest with
  | nil => simp [findClose] at h
  | cons c t ih =>
    rw [findClose] at h
    by_cases hc : (c = '|' && !pipeSkippable rev) = true
    · rw [if_pos hc] at h
      simp only [Option.some.injEq, Prod.mk.injEq] at h
      obtain ⟨h1, h2⟩ := h
      subst h1
      subst h2
      simp only [Bool.and_eq_true, decide_eq_true_eq] at hc
      rw [hc.1]
      simp
    · rw [if_neg hc] at h
      cases h2 : findClose (c :: rev) t with
      | none => rw [h2] at h; simp at h
      | some pr =>
        obtain ⟨p2, rest2⟩ := pr
        rw [h2] at h
        simp only [Option.map_some', Option.some.injEq, Prod.mk.injEq] at h
        obtain ⟨h3, h4⟩ := h
        subst h3
        subst h4
        have ht := ih h2
        rw [ht]
        simp

theorem findClose_len {rev l p rest : List Char}
    (h : findClose rev l = some (p, rest)) : rest.length < l.length := by
  have := findClose_eq h
  subst this
  simp
  omega

theorem cvtAuxF_fuel :
    ∀ (n m : Nat) (rev l : List Char), l.length ≤ n → l.length ≤ m →
      cvtAuxF n rev l = cvtAuxF m rev l := by
  intro n
  induction n with
  | zero =>
    intro m rev l hn _
    have : l = [] := List.eq_nil_of_length_eq_zero (Nat.le_zero.mp hn)
    subst this
    cases m <;> rfl
  | succ n ih =>
    intro m rev l hn hm
    cases l with
    | nil => cases m <;> rfl
    | cons c t =>
      have hm1 : ∃ m', m = m' + 1 := by
        cases m with
        | zero => simp at hm
        | succ m' => exact ⟨m', rfl⟩
      obtain ⟨m', rfl⟩ := hm1
      have hnt : t.length ≤ n := by simpa using hn
      have hmt : t.length ≤ m' := by simpa using hm
      rw [cvtAuxF, cvtAuxF]
      by_cases hc : c = '|'
      · rw [if_pos hc, if_pos hc]
        by_cases hs : pipeSkippable rev
        · rw [if_pos hs, if_pos hs, ih m' _ t hnt hmt]
        · rw [if_neg hs, if_neg hs]
          match h2 : findClose ('|' :: rev) t with
          | some (content, rest) =>
            dsimp only
            have hr := Nat.le_of_lt (findClose_len h2)
            rw [ih m' _ rest (Nat.le_trans hr hnt) (Nat.le_trans hr hmt)]
          | none =>
            dsimp only
            rw [ih m' _ t hnt hmt]
      · rw [if_neg hc, if_neg hc, ih m' _ t hnt hmt]

theorem cvtAuxF_eq_cvtAux {n : Nat} {rev l : List Char} (h : l.length ≤ n) :
    cvtAuxF n rev l = cvtAux rev l :=
  cvtAuxF_fuel n l.length rev l h (Nat.le_refl _)

theorem cvtAux_nil (rev : List Char) : cvtAux rev [] = [] := rfl

theorem cvtAux_copy {c : Char} (rev t : List Char) (hc : ¬ c = '|') :
    cvtAux rev (c :: t) = c :: cvtAux (c :: rev) t := by
  rw [cvtAux]
  simp only [List.length_cons]
  rw [cvtAuxF, if_neg hc]
  rfl

theorem cvtAux_skip (rev t : List Char) (hs : pipeSkippable rev = true) :
    cvtAux rev ('|' :: t) = '|' :: cvtAux ('|' :: rev) t := by
  rw [cvtAux]
  simp only [List.length_cons]
  rw [cvtAuxF, if_pos rfl, if_pos hs]
  rfl

theorem cvtAux_conv {rev t content rest : List Char}
    (hs : pipeSkippable rev = false)
    (h2 : findClose ('|' :: rev) t = some (content, rest)) :
    cvtAux rev ('|' :: t) =
      S "\\left|" ++ content ++ S "\\right|" ++
        cvtAux ('|' :: content.reverse ++ '|' :: rev) rest := by
  rw [cvtAux]
  simp only [List.length_cons]
  rw [cvtAuxF, if_pos rfl, if_neg (by simp [hs]), h2]
  dsimp only
  rw [cvtAuxF_eq_cvtAux (Nat.le_of_lt (findClose_len h2))]

theorem cvtAux_noclose {rev t : List Char} (hs : pipeSkippable rev = false)
    (h2 : findClose ('|' :: rev) t = none) :
    cvtAux rev ('|' :: t) = '|' :: cvtAux ('|' :: rev) t := by
  rw [cvtAux]
  simp only [List.length_cons]
  rw [cvtAuxF, if_pos rfl, if_neg (by simp [hs]), h2]
  rfl

/-!
## Lemmas about the group scanner
-/

theorem braceScan_cons (c : Char) (v : List Char) (d : Nat) :
    braceScan (c :: v) d =
      if (if c = '{' then d + 1 else if c = '}' then d - 1 else d) = 0
      then some ([], v)
      else
        (braceScan v
            (if c = '{' then d + 1 else if c = '}' then d - 1 else d)).map
          (fun p => (c :: p.1, p.2)) := rfl

theorem takeWhile_length_le (p : Char → Bool) (l : List Char) :
    (l.takeWhile p).length ≤ l.length := by
  have := length_takeWhile_add p l
  omega

theorem count_take_succ_cons (a c : Char) (v : List Char) (j : Nat) :
    ((c :: v).take (j + 1)).count a =
      (v.take j).count a + if c = a then 1 else 0 := by
  rw [List.take_succ_cons, List.count_cons]
  congr 1
  by_cases hca : c = a
  · rw [if_pos hca, if_pos (by simp [hca])]
  · rw [if_neg hca, if_neg (by simp [hca])]

theorem braceScan_none : ∀ (u : List Char) (d : Nat), 1 ≤ d →
    (∀ j, j ≤ u.length →
      ((u.take j).count '}') + 1 ≤ ((u.take j).count '{') + d) →
    braceScan u d = none := by
  intro u
  induction u with
  | nil => intro d _ _; rfl
  | cons c v ih =>
    intro d hd h
    rw [braceScan_cons]
    by_cases hc1 : c = '{'
    · subst hc1
      rw [if_pos rfl, if_neg (by omega)]
      rw [ih (d + 1) (by omega) ?_]
      · rfl
      · intro j hj
        have h2 := h (j + 1) (by simpa using hj)
        rw [count_take_succ_cons, count_take_succ_cons] at h2
        rw [if_neg (by decide), if_pos rfl] at h2
        omega
    · by_cases hc2 : c = '}'
      · subst hc2
        have hd2 : 2 ≤ d := by
          have h1 := h (0 + 1) (by simp)
          rw [count_take_succ_cons, count_take_succ_cons] at h1
          rw [if_pos rfl, if_neg (by decide)] at h1
          simp at h1
          omega
        rw [if_neg hc1, if_pos rfl, if_neg (by omega)]
        rw [ih (d - 1) (by omega) ?_]
        · rfl
        · intro j hj
          have h2 := h (j + 1) (by simpa using hj)
          rw [count_take_succ_cons, count_take_succ_cons] at h2
          rw [if_pos rfl, if_neg (by decide)] at h2
          omega
      · rw [if_neg hc1, if_neg hc2, if_neg (by omega)]
        rw [ih d hd ?_]
        · rfl
        · intro j hj
          have h2 := h (j + 1) (by simpa using hj)
          rw [count_take_succ_cons, count_take_succ_cons] at h2
          rw [if_neg hc2, if_neg hc1] at h2
          omega

theorem unbalancedFrom_spec {u : List Char} (h : unbalancedFrom u = true) :
    ∀ j, j ≤ u.length →
      ((u.take j).count '}') ≤ ((u.take j).count '{') := by
  intro j hj
  rw [unbalancedFrom, List.all_eq_true] at h
  have := h j (by rw [List.mem_range]; omega)
  simpa using this

theorem parseGroupL_open_unbalanced {t u : List Char}
    (hdw : t.dropWhile isWs = '{' :: u)
    (hunb : ∀ j, j ≤ u.length →
      ((u.take j).count '}') ≤ ((u.take j).count '{')) :
    parseGroupL t = ([], t.length) := by
  have hdrop : t.drop ((t.takeWhile isWs).length) = '{' :: u := by
    rw [drop_length_takeWhile]; exact hdw
  have hlen := length_takeWhile_add isWs t
  rw [hdw] at hlen
  have hbs : braceScan u 1 = none := by
    apply braceScan_none u 1 (Nat.le_refl _)
    intro j hj
    have := hunb j hj
    omega
  rw [parseGroupL]
  simp only [hdrop]
  simp only [List.length_cons] at hlen
  simp [hbs]
  omega

theorem parseGroupL_le (t : List Char) : (parseGroupL t).2 ≤ t.length := by
  have hdrop : t.drop ((t.takeWhile isWs).length) = t.dropWhile isWs :=
    drop_length_takeWhile _ _
  have hlen := length_takeWhile_add isWs t
  rw [parseGroupL]
  simp only [hdrop]
  match hd : t.dropWhile isWs with
  | [] =>
    rw [hd] at hlen
    dsimp only
    simp at hlen
    omega
  | c :: u =>
    rw [hd] at hlen
    simp only [List.length_cons] at hlen
    dsimp only
    have hal := takeWhile_length_le isAlphaCh u
    by_cases hc1 : c = '{'
    · rw [if_pos hc1]
      match braceScan u 1 with
      | some (v, rest) => simp; omega
      | none => simp; omega
    · rw [if_neg hc1]
      by_cases hc2 : c = '\\'
      · rw [if_pos hc2]
        simp
        omega
      · rw [if_neg hc2]
        simp
        omega

theorem pbOnce_le {t : List Char} {b : Bool} {v : List Char} {n : Nat}
    {rest : List Char} (h : pbOnce t = some (b, v, n, rest)) :
    1 ≤ n ∧ n + rest.length ≤ t.length := by
  have hdrop : t.drop ((t.takeWhile isWs).length) = t.dropWhile isWs :=
    drop_length_takeWhile _ _
  have hlen := length_takeWhile_add isWs t
  rw [pbOnce] at h
  simp only [hdrop] at h
  match hd : t.dropWhile isWs with
  | [] => rw [hd] at h; simp at h
  | c :: u =>
    rw [hd] at h
    rw [hd] at hlen
    simp only [List.length_cons] at hlen
    dsimp only at h
    have hg := parseGroupL_le u
    by_cases hc1 : c = '_'
    · rw [if_pos hc1] at h
      simp only [Option.some.injEq, Prod.mk.injEq] at h
      obtain ⟨-, -, hn, hrest⟩ := h
      subst hn
      subst hrest
      simp only [List.length_drop]
      omega
    · rw [if_neg hc1] at h
      by_cases hc2 : c = '^'
      · rw [if_pos hc2] at h
        simp only [Option.some.injEq, Prod.mk.injEq] at h
        obtain ⟨-, -, hn, hrest⟩ := h
        subst hn
        subst hrest
        simp only [List.length_drop]
        omega
      · rw [if_neg hc2] at h
        simp at h

theorem parseBoundsL_le (t : List Char) : (parseBoundsL t).2.2 ≤ t.length := by
  rw [parseBoundsL]
  cases h1 : pbOnce t with
  | none =>
    dsimp only
    have := takeWhile_length_le isWs t
    simpa using this
  | some q =>
    obtain ⟨b, v, n, rest⟩ := q
    dsimp only
    have hle1 := pbOnce_le h1
    cases h2 : pbOnce rest with
    | none =>
      dsimp only
      have := takeWhile_length_le isWs rest
      omega
    | some q2 =>
      obtain ⟨b2, v2, n2, rest2⟩ := q2
      dsimp only
      have hle2 := pbOnce_le h2
      by_cases hb2 : b2 = true
      · rw [if_pos hb2]
        simp only []
        omega
      · rw [if_neg hb2]
        simp only []
        omega

/-!
## Claim C3
-/

/-- C3: the claim states that `parseGroup`, on a brace group whose braces are
unbalanced before end-of-string, returns the empty string *and leaves the
offset unchanged*.  The first half is what the code does; the second is not:
the closure's scan index has run to the end of the string when the scan gives
up, so the position after the call is the end of the string, not the position
before the call.  Concretely, on `"{ab"` at offset `0` the result is
`("", 3)`, not `("", 0)`. -/
theorem C3_counterexample :
    parseGroup 0 (S "\x7bab") = ([], 3) ∧ parseGroup 0 (S "\x7bab") ≠ ([], 0) := by
  decide

/-- C3 (amended): when the next non-whitespace character opens a brace group
whose braces are unbalanced before end-of-string (no prefix of the remainder
closes more braces than it opens), `parseGroup` fails soft by returning the
empty string — but the scan position advances to the end of the string rather
than staying where it was. -/
theorem C3_parseGroup_unbalanced (s : List Char) (i : Nat) (u : List Char)
    (hi : i ≤ s.length)
    (hdw : (s.drop i).dropWhile isWs = '{' :: u)
    (hunb : unbalancedFrom u = true) :
    parseGroup i s = ([], s.length) := by
  rw [parseGroup]
  rw [parseGroupL_open_unbalanced hdw (unbalancedFrom_spec hunb)]
  simp [List.length_drop]
  omega

/-- C3 witness: the amended theorem applied to a concrete unbalanced input
with leading whitespace. -/
theorem C3_witness :
    unbalancedFrom (S "ab") = true ∧ parseGroup 0 (S " \x7bab") = ([], 4) := by
  refine ⟨by decide, ?_⟩
  have h := C3_parseGroup_unbalanced (S " \x7bab") 0 (S "ab")
    (by decide) (by decide) (by decide)
  simpa using h

/-!
## Claim C9
-/

/-- C9: the claim asserts `startIdx ≤ end ≤ s.length` for *every* offset,
including offsets beyond the string's length — but there the code returns
`end = startIdx > s.length`: with `s = ""` and offset `1` the result has
`endIdx = 1`, which is not `≤ 0`. -/
theorem C9_counterexample :
    parseBounds 1 ([] : List Char) = ⟨[], [], 1⟩ ∧
    ¬ ((parseBounds 1 ([] : List Char)).endIdx ≤ ([] : List Char).length) := by
  decide

/-- C9 (amended): for every start offset within the string,
`startIdx ≤ end ≤ s.length`; for every offset at or past the end the scanner
consumes nothing and returns empty bounds with `end` equal to the start
offset (so beyond the length, `end = startIdx` exceeds `s.length`).  The
model is total, so no out-of-range character access exists to state. -/
theorem C9_parseBounds_range (s : List Char) (i : Nat) :
    (i ≤ s.length →
      i ≤ (parseBounds i s).endIdx ∧ (parseBounds i s).endIdx ≤ s.length)
    ∧ (s.length ≤ i → parseBounds i s = ⟨[], [], i⟩) := by
  constructor
  · intro hi
    have hc : (parseBounds i s).endIdx = i + (parseBoundsL (s.drop i)).2.2 :=
      rfl
    have hle := parseBoundsL_le (s.drop i)
    rw [List.length_drop] at hle
    constructor
    · rw [hc]; omega
    · rw [hc]; omega
  · intro hi
    have hdrop : s.drop i = [] := List.drop_eq_nil_of_le hi
    rw [parseBounds, hdrop]
    rfl

/-- C9 witness: the amended theorem applied at an in-range offset and at an
out-of-range offset. -/
theorem C9_witness :
    (0 ≤ (parseBounds 0 (S "_{0}x")).endIdx ∧
      (parseBounds 0 (S "_{0}x")).endIdx ≤ (S "_{0}x").length) ∧
    parseBounds 9 (S "abc") = ⟨[], [], 9⟩ :=
  ⟨(C9_parseBounds_range (S "_{0}x") 0).1 (by decide),
   (C9_parseBounds_range (S "abc") 9).2 (by decide)⟩

/-!
## Brace-balanced groups scan to their closing brace
-/

theorem braceScan_balanced : ∀ (a : List Char) (d : Nat) (rest : List Char),
    (∀ j, j ≤ a.length →
      ((a.take j).count '}') + 1 ≤ ((a.take j).count '{') + d) →
    (d + a.count '{' = 1 + a.count '}') →
    braceScan (a ++ '}' :: rest) d = some (a, rest) := by
  intro a
  induction a with
  | nil =>
    intro d rest _ hc
    simp at hc
    subst hc
    rw [List.nil_append, braceScan_cons]
    have hcond :
        (if ('}' : Char) = '{' then 1 + 1
         else if ('}' : Char) = '}' then 1 - 1 else 1) = 0 := by decide
    rw [hcond, if_pos rfl]
  | cons c v ih =>
    intro a_d rest h hc
    rw [List.cons_append, braceScan_cons]
    by_cases hc1 : c = '{'
    · subst hc1
      have e1 : List.count '{' ('{' :: v) = v.count '{' + 1 :=
        List.count_cons_self _ _
      have e2 : List.count '}' ('{' :: v) = v.count '}' :=
        List.count_cons_of_ne (by decide) _
      rw [e1, e2] at hc
      have hcond :
          (if ('{' : Char) = '{' then a_d + 1
           else if ('{' : Char) = '}' then a_d - 1 else a_d) = a_d + 1 :=
        if_pos rfl
      rw [hcond, if_neg (by omega)]
      rw [ih (a_d + 1) rest ?_ (by omega)]
      · rfl
      · intro j hj
        have h2 := h (j + 1) (by simpa using hj)
        rw [count_take_succ_cons, count_take_succ_cons] at h2
        rw [if_neg (by decide), if_pos rfl] at h2
        omega
    · by_cases hc2 : c = '}'
      · subst hc2
        have e1 : List.count '{' ('}' :: v) = v.count '{' :=
          List.count_cons_of_ne (by decide) _
        have e2 : List.count '}' ('}' :: v) = v.count '}' + 1 :=
          List.count_cons_self _ _
        rw [e1, e2] at hc
        have hd2 : 2 ≤ a_d := by
          have h1 := h (0 + 1) (by simp)
          rw [count_take_succ_cons, count_take_succ_cons] at h1
          rw [if_pos rfl, if_neg (by decide)] at h1
          simp at h1
          omega
        have hcond :
            (if ('}' : Char) = '{' then a_d + 1
             else if ('}' : Char) = '}' then a_d - 1 else a_d) = a_d - 1 := by
          rw [if_neg (by decide)]
          exact if_pos rfl
        rw [hcond, if_neg (by omega)]
        rw [ih (a_d - 1) rest ?_ (by omega)]
        · rfl
        · intro j hj
          have h2 := h (j + 1) (by simpa using hj)
          rw [count_take_succ_cons, count_take_succ_cons] at h2
          rw [if_pos rfl, if_neg (by decide)] at h2
          omega
      · have e1 : List.count '{' (c :: v) = v.count '{' :=
          List.count_cons_of_ne (fun hx => hc1 hx.symm) _
        have e2 : List.count '}' (c :: v) = v.count '}' :=
          List.count_cons_of_ne (fun hx => hc2 hx.symm) _
        rw [e1, e2] at hc
        have hd1 : 1 ≤ a_d := by
          have h1 := h 0 (by simp)
          simp at h1
          omega
        have hcond :
            (if c = '{' then a_d + 1
             else if c = '}' then a_d - 1 else a_d) = a_d := by
          rw [if_neg hc1, if_neg hc2]
        rw [hcond, if_neg (by omega)]
        rw [ih a_d rest ?_ (by omega)]
        · rfl
        · intro j hj
          have h2 := h (j + 1) (by simpa using hj)
          rw [count_take_succ_cons, count_take_succ_cons] at h2
          rw [if_neg hc2, if_neg hc1] at h2
          omega

theorem balancedB_parts {a : List Char} (ha : balancedB a = true) :
    (∀ j, j ≤ a.length →
      ((a.take j).count '}') ≤ ((a.take j).count '{')) ∧
    a.count '{' = a.count '}' := by
  rw [balancedB, Bool.and_eq_true] at ha
  exact ⟨unbalancedFrom_spec ha.1, by simpa using ha.2⟩

theorem parseGroupL_balanced {a rest : List Char} (ha : balancedB a = true) :
    parseGroupL ('{' :: (a ++ '}' :: rest)) = (a, a.length + 2) := by
  obtain ⟨hpre, htot⟩ := balancedB_parts ha
  have hw : ('{' :: (a ++ '}' :: rest)).takeWhile isWs = [] := by
    rw [List.takeWhile_cons, if_neg (by decide)]
  have hbs : braceScan (a ++ '}' :: rest) 1 = some (a, rest) := by
    apply braceScan_balanced a 1 rest
    · intro j hj
      have := hpre j hj
      omega
    · omega
  rw [parseGroupL]
  simp only [hw, List.length_nil, List.drop_zero]
  simp only [hbs]
  simp
  omega

theorem drop_group (a rest : List Char) (x : Char) :
    ('{' :: (a ++ x :: rest)).drop (a.length + 2) = rest := by
  have hsh : '{' :: (a ++ x :: rest) = (('{' :: a) ++ [x]) ++ rest := by simp
  have hlen2 : (('{' :: a) ++ [x]).length = a.length + 2 := by simp
  rw [hsh, ← hlen2, List.drop_left]

theorem pbOnce_under {a rest : List Char} (ha : balancedB a = true) :
    pbOnce ('_' :: '{' :: (a ++ '}' :: rest)) =
      some (true, a, a.length + 3, rest) := by
  have hw : ('_' :: '{' :: (a ++ '}' :: rest)).takeWhile isWs = [] := by
    rw [List.takeWhile_cons, if_neg (by decide)]
  rw [pbOnce]
  simp only [hw, List.length_nil, List.drop_zero]
  simp only [parseGroupL_balanced ha, drop_group]
  simp
  omega

theorem pbOnce_caret {b rest : List Char} (hb : balancedB b = true) :
    pbOnce ('^' :: '{' :: (b ++ '}' :: rest)) =
      some (false, b, b.length + 3, rest) := by
  have hw : ('^' :: '{' :: (b ++ '}' :: rest)).takeWhile isWs = [] := by
    rw [List.takeWhile_cons, if_neg (by decide)]
  rw [pbOnce]
  simp only [hw, List.length_nil, List.drop_zero]
  simp only [parseGroupL_balanced hb, drop_group]
  simp
  omega

theorem parseBoundsL_lower_then_upper {a b suffix : List Char}
    (ha : balancedB a = true) (hb : balancedB b = true) :
    parseBoundsL
        ('_' :: '{' :: (a ++ '}' :: '^' :: '{' :: (b ++ '}' :: suffix))) =
      (a, b, a.length + b.length + 6) := by
  rw [parseBoundsL, pbOnce_under ha]
  simp only [pbOnce_caret hb]
  simp
  omega

theorem parseBoundsL_upper_then_lower {a b suffix : List Char}
    (ha : balancedB a = true) (hb : balancedB b = true) :
    parseBoundsL
        ('^' :: '{' :: (b ++ '}' :: '_' :: '{' :: (a ++ '}' :: suffix))) =
      (a, b, a.length + b.length + 6) := by
  rw [parseBoundsL, pbOnce_caret hb]
  simp only [pbOnce_under ha]
  simp
  omega

/-!
## Claim C7
-/

/-- C7: the claimed symmetry fails for *arbitrary* bound texts: when the lower
bound text itself contains an unmatched opening brace, the group scan of the
first-written bound runs away across the other marker, so the two orders
disagree.  On `"_{{}^{b}"` both bounds come back empty, while on
`"^{b}_{{}"` the upper bound is `"b"`. -/
theorem C7_counterexample :
    parseBounds 0 (S "_\x7b\x7b\x7d^\x7bb\x7d") = ⟨[], [], 8⟩ ∧
    parseBounds 0 (S "^\x7bb\x7d_\x7b\x7b\x7d") = ⟨[], S "b", 8⟩ ∧
    ¬ ((parseBounds 0 (S "_\x7b\x7b\x7d^\x7bb\x7d")).min =
          (parseBounds 0 (S "^\x7bb\x7d_\x7b\x7b\x7d")).min ∧
       (parseBounds 0 (S "_\x7b\x7b\x7d^\x7bb\x7d")).max =
          (parseBounds 0 (S "^\x7bb\x7d_\x7b\x7b\x7d")).max) := by
  decide

/-- C7 (amended): `parseBounds` is symmetric in the order of the subscript and
superscript markers for brace-balanced bound texts: from the same start
offset, `_{a}^{b}suffix` and `^{b}_{a}suffix` yield the same
`{lowerBound: a, upperBound: b}` pair, for all brace-balanced `a` and `b` and
any trailing suffix. -/
theorem C7_parseBounds_symmetric (s : List Char) (i : Nat)
    (a b suffix : List Char)
    (ha : balancedB a = true) (hb : balancedB b = true) :
    (s.drop i =
        '_' :: '{' :: (a ++ '}' :: '^' :: '{' :: (b ++ '}' :: suffix)) →
      (parseBounds i s).min = a ∧ (parseBounds i s).max = b)
    ∧ (s.drop i =
        '^' :: '{' :: (b ++ '}' :: '_' :: '{' :: (a ++ '}' :: suffix)) →
      (parseBounds i s).min = a ∧ (parseBounds i s).max = b) := by
  constructor
  · intro hdrop
    constructor
    · show (parseBoundsL (s.drop i)).1 = a
      rw [hdrop, parseBoundsL_lower_then_upper ha hb]
    · show (parseBoundsL (s.drop i)).2.1 = b
      rw [hdrop, parseBoundsL_lower_then_upper ha hb]
  · intro hdrop
    constructor
    · show (parseBoundsL (s.drop i)).1 = a
      rw [hdrop, parseBoundsL_upper_then_lower ha hb]
    · show (parseBoundsL (s.drop i)).2.1 = b
      rw [hdrop, parseBoundsL_upper_then_lower ha hb]

/-- C7 witness: the amended symmetry applied to concrete balanced bounds in
both marker orders. -/
theorem C7_witness :
    balancedB (S "0") = true ∧
    ((parseBounds 0 (S "_{0}^{1}x")).min = S "0" ∧
      (parseBounds 0 (S "_{0}^{1}x")).max = S "1") ∧
    ((parseBounds 0 (S "^{1}_{0}x")).min = S "0" ∧
      (parseBounds 0 (S "^{1}_{0}x")).max = S "1") :=
  ⟨by decide,
   (C7_parseBounds_symmetric (S "_{0}^{1}x") 0 (S "0") (S "1") (S "x")
      (by decide) (by decide)).1 (by decide),
   (C7_parseBounds_symmetric (S "^{1}_{0}x") 0 (S "0") (S "1") (S "x")
      (by decide) (by decide)).2 (by decide)⟩

/-!
## Shape lemmas for the classifier branches
-/

theorem sumBranch_shape {s : List Char} {c : Construct}
    (h : sumBranch s = some c) : ∃ mn mx, c = .summation s mn mx := by
  rw [sumBranch] at h
  by_cases hp : ((S "\\sum").isPrefixOf s) = true
  · rw [if_pos hp] at h
    by_cases he :
        ((parseBounds 4 s).min.isEmpty || (parseBounds 4 s).max.isEmpty) = true
    · rw [if_pos he] at h
      simp at h
    · rw [if_neg he] at h
      simp only [Option.some.injEq] at h
      exact ⟨_, _, h.symm⟩
  · rw [if_neg hp] at h
    simp at h

theorem derivBranch_shape {s : List Char} {c : Construct}
    (h : derivBranch s = some c) : ∃ o v b e, c = .derivative o v b e := by
  rw [derivBranch] at h
  by_cases hp : ((S "\\frac").isPrefixOf s) = true
  · rw [if_pos hp] at h
    cases hd : derivParse s with
    | none => rw [hd] at h; simp at h
    | some q =>
      obtain ⟨o, v, ct⟩ := q
      rw [hd] at h
      dsimp only at h
      simp only [Option.some.injEq] at h
      exact ⟨_, _, _, _, h.symm⟩
  · rw [if_neg hp] at h
    simp at h

theorem intBranch_bounds {s body dvar : List Char}
    {bd : Option (List Char × List Char)}
    (h : intBranch s = some (.integral body dvar bd)) :
    bd.isSome ↔
      ((parseBounds 4 s).min ≠ [] ∧ (parseBounds 4 s).max ≠ []) := by
  rw [intBranch] at h
  dsimp only at h
  set pb := parseBounds 4 s with hpb
  set rc := restClean (s.drop pb.endIdx) with hrc
  clear_value rc
  clear_value pb
  by_cases hp : ((S "\\int").isPrefixOf s) = true
  · rw [if_pos hp] at h
    cases hfd : findDiff rc with
    | none => rw [hfd] at h; simp at h
    | some pv =>
      obtain ⟨p, vr⟩ := pv
      rw [hfd] at h
      dsimp only at h
      split at h
      next he =>
        simp only [Option.some.injEq, Construct.integral.injEq] at h
        obtain ⟨-, -, hbd⟩ := h
        subst hbd
        simp only [Option.isSome_none, Bool.false_eq_true, false_iff]
        rw [Bool.or_eq_true, List.isEmpty_iff, List.isEmpty_iff] at he
        tauto
      next he =>
        simp only [Option.some.injEq, Construct.integral.injEq] at h
        obtain ⟨-, -, hbd⟩ := h
        subst hbd
        simp only [Option.isSome_some, true_iff]
        rw [Bool.or_eq_true, List.isEmpty_iff, List.isEmpty_iff] at he
        tauto
  · rw [if_neg hp] at h
    simp at h

/-!
## Claim C1
-/

/-- C1: on the canonical definite-integral input `\int_{0}^{1} x^{2} dx` the
classifier commits to the Integral construct with body `x^{2}`, differential
variable `x` and bounds `{lower: "0", upper: "1"}`; and whenever the
classifier commits to an Integral, the bounds field is populated exactly when
both the raw lower and upper bound captures are present and non-empty. -/
theorem C1_integral_roundtrip :
    classify (S "\\int_{0}^{1} x^{2} dx") =
      .integral (S "x^{2}") (S "x") (some (S "0", S "1")) ∧
    ∀ (s body dvar : List Char) (bd : Option (List Char × List Char)),
      classify s = .integral body dvar bd →
      (bd.isSome ↔
        ((parseBounds 4 s).min ≠ [] ∧ (parseBounds 4 s).max ≠ [])) := by
  constructor
  · decide
  · intro s body dvar bd h
    rw [classify] at h
    cases hsum : sumBranch s with
    | some c =>
      rw [hsum] at h
      dsimp only at h
      obtain ⟨mn, mx, rfl⟩ := sumBranch_shape hsum
      simp at h
    | none =>
      rw [hsum] at h
      dsimp only at h
      cases hint : intBranch s with
      | some c =>
        rw [hint] at h
        dsimp only at h
        subst h
        exact intBranch_bounds hint
      | none =>
        rw [hint] at h
        dsimp only at h
        cases hder : derivBranch s with
        | some c =>
          rw [hder] at h
          dsimp only at h
          obtain ⟨o, v, b2, e, rfl⟩ := derivBranch_shape hder
          simp at h
        | none =>
          rw [hder] at h
          dsimp only at h
          simp at h

/-- C1 witness: the bounds-population equivalence applied at the canonical
definite integral. -/
theorem C1_witness :
    (some (S "0", S "1") : Option (List Char × List Char)).isSome ↔
      ((parseBounds 4 (S "\\int_{0}^{1} x^{2} dx")).min ≠ [] ∧
        (parseBounds 4 (S "\\int_{0}^{1} x^{2} dx")).max ≠ []) :=
  C1_integral_roundtrip.2 (S "\\int_{0}^{1} x^{2} dx") (S "x^{2}") (S "x")
    (some (S "0", S "1")) (by decide)

/-!
## Claim C2
-/

/-- C2: classification is total and deterministic by construction (`classify`
is a Lean function), and returns the Plain construct with the canonical text
unchanged whenever none of the summation, integral, or derivative branch
checks positively match — including on the empty string, single characters,
and adversarial unbalanced-brace strings. -/
theorem C2_classify_total :
    (∀ s : List Char, sumBranch s = none → intBranch s = none →
      derivBranch s = none → classify s = .plain s) ∧
    classify (S "") = .plain (S "") ∧
    classify (S "a") = .plain (S "a") ∧
    classify (S "\x7b\x7b\x7b") = .plain (S "\x7b\x7b\x7b") ∧
    classify (S "\\int_\x7b0\x7d") = .plain (S "\\int_\x7b0\x7d") := by
  refine ⟨?_, by decide, by decide, by decide, by decide⟩
  intro s h1 h2 h3
  rw [classify, h1, h2, h3]

/-- C2 witness: the fallback applied at a concrete lone-pipe input on which
all three pattern branches fail. -/
theorem C2_witness : classify (S "|") = .plain (S "|") :=
  C2_classify_total.1 (S "|") (by decide) (by decide) (by decide)

/-!
## Lemmas about the evaluation-point extraction
-/

theorem extractEval_some {vr content b ev val : List Char}
    (h : extractEval vr content = (b, some (ev, val))) :
    ∃ bi, lastIndexOfSub (S "|_\x7b") content = some bi ∧
      ∃ p0 p1,
        ((content.drop (bi + 3)).take
            (content.length - 1 - (bi + 3))).splitOn '=' = [p0, p1] ∧
        stripLeadBS (trimL p0) = stripLeadBS vr := by
  rw [extractEval] at h
  cases hbi : lastIndexOfSub (S "|_\x7b") content with
  | none => rw [hbi] at h; simp at h
  | some bi =>
    rw [hbi] at h
    dsimp only at h
    split at h
    next hend =>
      refine ⟨bi, rfl, ?_⟩
      rcases hps : ((content.drop (bi + 3)).take
          (content.length - 1 - (bi + 3))).splitOn '=' with - | ⟨p0, - | ⟨p1, - | ⟨q, rest⟩⟩⟩
      · rw [hps] at h; simp at h
      · rw [hps] at h; simp at h
      · rw [hps] at h
        dsimp only at h
        split at h
        next heq =>
          exact ⟨p0, p1, rfl, heq⟩
        next heq =>
          simp at h
      · rw [hps] at h; simp at h
    next hend => simp at h

theorem extractEval_mismatch {vr content : List Char} {bi : Nat}
    {p0 p1 : List Char}
    (hbi : lastIndexOfSub (S "|_\x7b") content = some bi)
    (hsplit : ((content.drop (bi + 3)).take
        (content.length - 1 - (bi + 3))).splitOn '=' = [p0, p1])
    (hne : stripLeadBS (trimL p0) ≠ stripLeadBS vr) :
    extractEval vr content = (content, none) := by
  rw [extractEval, hbi]
  dsimp only
  split
  next hend =>
    rw [hsplit]
    dsimp only
    rw [if_neg hne]
  next hend => rfl

/-!
## Claim C4
-/

/-- C4: the evaluation point of a derivative is populated only when the
`|_{...}` suffix splits on `=` into exactly two parts whose bound variable,
after stripping a leading backslash from both sides, equals the
differentiation variable; on a mismatched suffix variable the evaluation
point is absent and the whole suffix stays inside the body — concretely,
`\frac{d}{dx}x^{2}|_{t=3}` classifies with body `x^{2}|_{t=3}` and no
evaluation point. -/
theorem C4_eval_point_variable_match :
    classify (S "\\frac{d}{dx}x^{2}|_{t=3}") =
      .derivative 1 (S "x") (S "x^{2}|_{t=3}") none ∧
    (∀ (vr content b ev val : List Char),
      extractEval vr content = (b, some (ev, val)) →
      ∃ bi, lastIndexOfSub (S "|_\x7b") content = some bi ∧
        ∃ p0 p1,
          ((content.drop (bi + 3)).take
              (content.length - 1 - (bi + 3))).splitOn '=' = [p0, p1] ∧
          stripLeadBS (trimL p0) = stripLeadBS vr) ∧
    (∀ (vr content : List Char) (bi : Nat) (p0 p1 : List Char),
      lastIndexOfSub (S "|_\x7b") content = some bi →
      ((content.drop (bi + 3)).take
          (content.length - 1 - (bi + 3))).splitOn '=' = [p0, p1] →
      stripLeadBS (trimL p0) ≠ stripLeadBS vr →
      extractEval vr content = (content, none)) :=
  ⟨by decide,
   fun _ _ _ _ _ h => extractEval_some h,
   fun _ _ _ _ _ hbi hsplit hne => extractEval_mismatch hbi hsplit hne⟩

/-- C4 witness: the mismatch clause applied at the concrete suffix `|_{t=3}`
against differentiation variable `x`. -/
theorem C4_witness :
    extractEval (S "x") (S "x^{2}|_{t=3}") = (S "x^{2}|_{t=3}", none) :=
  C4_eval_point_variable_match.2.2 (S "x") (S "x^{2}|_{t=3}") 5 (S "t")
    (S "3") (by decide) (by decide) (by decide)

/-!
## Claim C10
-/

theorem contentOf_ne_nil {rest ct : List Char} (h : contentOf rest = some ct) :
    ct ≠ [] := by
  rw [contentOf] at h
  split at h
  next hsp =>
    cases hgl : rest.getLast? with
    | none => rw [hgl] at h; simp at h
    | some c =>
      rw [hgl] at h
      dsimp only at h
      split at h
      next => simp at h
      next =>
        simp only [Option.some.injEq] at h
        subst h
        simp
  next hsp =>
    split at h
    next => simp at h
    next =>
      simp only [Option.some.injEq] at h
      subst h
      rw [List.isEmpty_iff] at hsp
      exact hsp

theorem derivParse_content_ne_nil {s : List Char} {o : Nat} {v ct : List Char}
    (h : derivParse s = some (o, v, ct)) : ct ≠ [] := by
  rw [derivParse] at h
  simp only [Option.bind_eq_some', Option.bind_eq_some] at h
  obtain ⟨r1, -, r2, -, r3, -, q4, -, r5, -, r6, -, q8, -, q9, -, ct0, hct,
    h⟩ := h
  simp only [Option.some.injEq, Prod.mk.injEq] at h
  obtain ⟨-, -, hc⟩ := h
  subst hc
  exact contentOf_ne_nil hct

/-- C10: an input matching the derivative's fraction-of-differentials prefix
but with no body text after the denominator group is not classified as a
Derivative: the pattern's tail demands at least one character of body, so
`\frac{d}{dx}` falls through to Plain; in general the derivative parser never
yields an empty content capture. -/
theorem C10_empty_body_plain :
    classify (S "\\frac{d}{dx}") = .plain (S "\\frac{d}{dx}") ∧
    ∀ (s : List Char) (o : Nat) (v ct : List Char),
      derivParse s = some (o, v, ct) → ct ≠ [] :=
  ⟨by decide, fun _ _ _ _ h => derivParse_content_ne_nil h⟩

/-- C10 witness: the non-empty-body clause applied to a derivative with a
one-character body. -/
theorem C10_witness : (S "x" : List Char) ≠ [] :=
  C10_empty_body_plain.2 (S "\\frac{d}{dx}x") 1 (S "x") (S "x") (by decide)

/-!
## Claim C5
-/

/-- C5: the claim lists `\sin^{n}x`, `\sin^n x`, `\sin^{n}(x)`, `\sin^n(x)`
as all rewritten to the parenthesized power-of-call form.  The braced forms
never reach the trig-power rewrite — the earlier generic exponent pass has
already turned `^{2}` into `^(2)` — so `\sin^{2}x` comes out as `sin^(2)*x`,
not `(sin(x))^(2)` or `(sin(x))^2`. -/
theorem C5_counterexample :
    latexToNerdamer (S "\\sin^{2}x") = S "sin^(2)*x" ∧
    (S "sin^(2)*x" : List Char) ≠ S "(sin(x))^(2)" ∧
    (S "sin^(2)*x" : List Char) ≠ S "(sin(x))^2" := by decide

/-- C5 (amended): the headline binding holds — `\sin^2x` translates to
`(sin(x))^2`, not `sin(x^2)`, and so does `\sin^2(x)` — but of the four
surface forms only the unbraced-power ones are rewritten to power-of-call:
the braced forms end as `sin^(2)*x` / `sin^(2)(x)` (the exponent pass runs
first, and no multiplication sign appears between `)` and `(` because the
`)(`-insertion arm of the implicit-multiplication chain is unreachable), and
a space before a bare-letter argument (`\sin^2 x`) defeats the rewrite,
ending as `sin^2*x`. -/
theorem C5_trig_power_binding :
    latexToNerdamer (S "\\sin^2x") = S "(sin(x))^2" ∧
    latexToNerdamer (S "\\sin^2(x)") = S "(sin(x))^2" ∧
    latexToNerdamer (S "\\sin^{2}x") = S "sin^(2)*x" ∧
    latexToNerdamer (S "\\sin^{2}(x)") = S "sin^(2)(x)" ∧
    latexToNerdamer (S "\\sin^2 x") = S "sin^2*x" := by decide

/-!
## Lemmas about substring containment and the star cleanup
-/

theorem containsSub_cons (p : List Char) (c : Char) (t : List Char) :
    containsSub p (c :: t) = (p.isPrefixOf (c :: t) || containsSub p t) := by
  rw [containsSub, containsSub, List.tails_cons, List.any_cons]

theorem containsSub_tail {p : List Char} {c : Char} {t : List Char}
    (h : containsSub p (c :: t) = false) : containsSub p t = false := by
  rw [containsSub_cons, Bool.or_eq_false_iff] at h
  exact h.2

theorem collapseStars_head_ne {t : List Char} (h : t.head? ≠ some '*') :
    (collapseStars t).head? = t.head? := by
  match t with
  | [] => rfl
  | [c] => rfl
  | c :: d :: t2 =>
    have hc : ¬ c = '*' := by
      intro hx
      exact h (by rw [hx]; rfl)
    rw [collapseStars, if_neg hc]
    rfl

theorem twoStar_prefix_iff (X : List Char) :
    (S "**").isPrefixOf X = true ↔
      ∃ X2, X = '*' :: '*' :: X2 := by
  match X with
  | [] => simp [S, List.isPrefixOf]
  | [c] => simp [S, List.isPrefixOf]
  | c :: d :: X2 =>
    constructor
    · intro h
      simp [S, List.isPrefixOf] at h
      exact ⟨X2, by rw [← h.1, ← h.2]⟩
    · rintro ⟨X3, hX⟩
      cases hX
      simp [S, List.isPrefixOf]

theorem collapseStars_no_pair : ∀ (n : Nat) (r : List Char), r.length ≤ n →
    containsSub (S "***") r = false →
    containsSub (S "**") (collapseStars r) = false := by
  intro n
  induction n with
  | zero =>
    intro r hn _
    have : r = [] := List.eq_nil_of_length_eq_zero (Nat.le_zero.mp hn)
    subst this
    decide
  | succ n ih =>
    intro r hn h3
    match r with
    | [] => decide
    | [c] =>
      rw [show collapseStars [c] = [c] from rfl]
      rw [containsSub_cons]
      simp [S, List.isPrefixOf, containsSub]
    | c :: d :: t =>
      have hlen : (d :: t).length ≤ n := by
        simp at hn ⊢
        omega
      have hlent : t.length ≤ n := by
        simp at hn ⊢
        omega
      have h3t : containsSub (S "***") (d :: t) = false := containsSub_tail h3
      have h3tt : containsSub (S "***") t = false := containsSub_tail h3t
      by_cases hc : c = '*'
      · by_cases hd : d = '*'
        · subst hc
          subst hd
          -- the triple-star prefix is excluded, so t does not start with '*'
          have hth : t.head? ≠ some '*' := by
            intro hth
            obtain ⟨t2, rfl⟩ : ∃ t2, t = '*' :: t2 := by
              cases t with
              | nil => simp at hth
              | cons e t2 =>
                simp at hth
                exact ⟨t2, by rw [hth]⟩
            rw [containsSub_cons] at h3
            have hpre3 :
                (S "***").isPrefixOf ('*' :: '*' :: '*' :: t2) = true := by
              simp [S, List.isPrefixOf]
            simp [hpre3] at h3
          rw [collapseStars, if_pos rfl, if_pos rfl]
          rw [containsSub_cons, Bool.or_eq_false_iff]
          refine ⟨?_, ih t hlent h3tt⟩
          rw [Bool.eq_false_iff]
          intro hpre
          obtain ⟨X2, hX⟩ := (twoStar_prefix_iff _).mp hpre
          have hhd : (collapseStars t).head? = some '*' := by
            cases hX2 : collapseStars t with
            | nil => rw [hX2] at hX; simp at hX
            | cons e X3 =>
              rw [hX2] at hX
              simp at hX
              simp [hX.1]
          rw [collapseStars_head_ne hth] at hhd
          exact hth hhd
        · subst hc
          rw [collapseStars, if_pos rfl, if_neg hd]
          rw [containsSub_cons, Bool.or_eq_false_iff]
          refine ⟨?_, ih (d :: t) hlen h3t⟩
          rw [Bool.eq_false_iff]
          intro hpre
          obtain ⟨X2, hX⟩ := (twoStar_prefix_iff _).mp hpre
          have hhd : (collapseStars (d :: t)).head? = some '*' := by
            cases hX2 : collapseStars (d :: t) with
            | nil => rw [hX2] at hX; simp at hX
            | cons e X3 =>
              rw [hX2] at hX
              simp at hX
              simp [hX.1]
          rw [collapseStars_head_ne (by simp [hd])] at hhd
          simp at hhd
          exact hd hhd
      · rw [collapseStars, if_neg hc]
        rw [containsSub_cons, Bool.or_eq_false_iff]
        refine ⟨?_, ih (d :: t) hlen h3t⟩
        rw [Bool.eq_false_iff]
        intro hpre
        obtain ⟨X2, hX⟩ := (twoStar_prefix_iff _).mp hpre
        simp at hX
        exact hc hX.1

/-!
## Claim C8
-/

/-- C8: the final cleanup collapses `**` with a single global pass and strips
at most one leading `*`, so runs of three or more multiplication signs defeat
both halves of the claim: `a****a` translates to `a**a` (contains `**`), and
`***a` translates to `*a` (begins with `*`). -/
theorem C8_counterexample :
    latexToNerdamer (S "a****a") = S "a**a" ∧
    containsSub (S "**") (latexToNerdamer (S "a****a")) = true ∧
    latexToNerdamer (S "***a") = S "*a" ∧
    (latexToNerdamer (S "***a")).head? = some '*' := by decide

/-- C8 (amended): for every input whose translated string entering the final
cleanup contains no run of three consecutive multiplication signs, the output
of the forward translation never contains the substring `**` and never
begins with a `*`. -/
theorem C8_no_double_star (s : List Char)
    (h : containsSub (S "***") (nerdPre s) = false) :
    containsSub (S "**") (latexToNerdamer s) = false ∧
    (latexToNerdamer s).head? ≠ some '*' := by
  have hA : containsSub (S "**") (collapseStars (nerdPre s)) = false :=
    collapseStars_no_pair (nerdPre s).length (nerdPre s) (Nat.le_refl _) h
  rw [latexToNerdamer]
  set X := collapseStars (nerdPre s) with hX
  clear_value X
  match X, hA with
  | [], _ => exact ⟨by decide, by simp [stripLeadStar]⟩
  | c :: X2, hA =>
    rw [show stripLeadStar (c :: X2) = if c = '*' then X2 else c :: X2
      from rfl]
    by_cases hc : c = '*'
    · subst hc
      rw [if_pos rfl]
      refine ⟨containsSub_tail hA, ?_⟩
      intro hh
      rw [containsSub_cons, Bool.or_eq_false_iff, Bool.eq_false_iff] at hA
      apply hA.1
      obtain ⟨X3, hX3⟩ : ∃ X3, X2 = '*' :: X3 := by
        cases X2 with
        | nil => simp at hh
        | cons e X3 =>
          simp at hh
          exact ⟨X3, by rw [hh]⟩
      rw [hX3]
      simp [S, List.isPrefixOf]
    · rw [if_neg hc]
      refine ⟨hA, ?_⟩
      intro hh
      simp at hh
      exact hc hh


/-- C8 witness: the amended cleanup property applied to a concrete input with
an implicit multiplication. -/
theorem C8_witness :
    containsSub (S "***") (nerdPre (S "2x")) = false ∧
    containsSub (S "**") (latexToNerdamer (S "2x")) = false ∧
    (latexToNerdamer (S "2x")).head? ≠ some '*' :=
  ⟨by decide, (C8_no_double_star (S "2x") (by decide)).1,
   (C8_no_double_star (S "2x") (by decide)).2⟩

/-!
## Claim C6

The rewriter is *not* idempotent on all inputs: the lazy `[^)]*?` capture of
the `\mathrm{abs}(...)` pass stops at the first closing parenthesis, so on a
nested named-operator input the first application leaves a residual
`\mathrm{abs}` spelling which the second application then converts.  The
idempotence does hold on every input whose first-pass output carries no
residual operator spelling: the regex passes then find nothing, and the
bare-pipe scan recognizes every `\left|`/`\right|` it emitted and skips it.
The bulk of the work is the idempotence of `convertSimplePipes`, proved by a
simulation argument: the rescan of the output runs in a shifted context, and
the two contexts always agree on the six-character window the skip check
inspects (`AgreeW`).
-/

theorem AgreeW_pipe (a b : List Char) : AgreeW ('|' :: a) ('|' :: b) :=
  Or.inr ⟨[], a, b, by decide, rfl, rfl⟩

theorem AgreeW_cons {r r' : List Char} (c : Char) (h : AgreeW r r') :
    AgreeW (c :: r) (c :: r') := by
  rcases h with h | ⟨p, a, b, hp, hr, hr'⟩
  · left
    have h5 : r.take 5 = r'.take 5 := by
      have h2 := congrArg (List.take 5) h
      simpa [List.take_take] using h2
    show c :: r.take 5 = c :: r'.take 5
    rw [h5]
  · by_cases hlen : p.length = 5
    · left
      subst hr
      subst hr'
      have h5 : ∀ x : List Char, (p ++ '|' :: x).take 5 = p := by
        intro x
        rw [List.take_append_eq_append_take, ← hlen, List.take_length]
        simp
      show c :: (p ++ '|' :: a).take 5 = c :: (p ++ '|' :: b).take 5
      rw [h5 a, h5 b]
    · right
      refine ⟨c :: p, a, b, by simp; omega, ?_, ?_⟩
      · rw [hr]
        rfl
      · rw [hr']
        rfl

theorem take_has_bar {p a : List Char} {n : Nat} (h : p.length < n) :
    '|' ∈ (p ++ '|' :: a).take n := by
  rw [List.take_append_eq_append_take]
  refine List.mem_append.mpr (Or.inr ?_)
  cases hk : n - p.length with
  | zero => omega
  | succ k =>
    rw [List.take_succ_cons]
    exact List.mem_cons_self _ _

theorem not_beq_of_bar_mem {w pat : List Char} (hb : '|' ∈ w)
    (hnb : '|' ∉ pat) : (w == pat) = false := by
  by_cases he : w = pat
  · exact absurd (he ▸ hb) hnb
  · exact beq_false_of_ne he

theorem pipeSkippable_agree {r r' : List Char} (h : AgreeW r r') :
    pipeSkippable r = pipeSkippable r' := by
  rcases h with h | ⟨p, a, b, hp, hr, hr'⟩
  · have h5 : r.take 5 = r'.take 5 := by
      have h2 := congrArg (List.take 5) h
      simpa [List.take_take] using h2
    rw [pipeSkippable, pipeSkippable, h, h5]
  · subst hr
    subst hr'
    by_cases hlen : p.length = 5
    · have h5 : ∀ x : List Char, (p ++ '|' :: x).take 5 = p := by
        intro x
        rw [List.take_append_eq_append_take, ← hlen, List.take_length]
        simp
      have h6 : ∀ x : List Char,
          ((p ++ '|' :: x).take 6 == revRight) = false := by
        intro x
        exact not_beq_of_bar_mem (take_has_bar (by omega)) (by decide)
      rw [pipeSkippable, pipeSkippable, h5 a, h5 b, h6 a, h6 b]
    · have h5 : ∀ x : List Char,
          ((p ++ '|' :: x).take 5 == revLeft) = false := by
        intro x
        exact not_beq_of_bar_mem (take_has_bar (by omega)) (by decide)
      have h6 : ∀ x : List Char,
          ((p ++ '|' :: x).take 6 == revRight) = false := by
        intro x
        exact not_beq_of_bar_mem (take_has_bar (by omega)) (by decide)
      rw [pipeSkippable, pipeSkippable, h5 a, h5 b, h6 a, h6 b]

theorem findClose_allSkippable : ∀ (l rev p rest : List Char),
    findClose rev l = some (p, rest) → AllSkippable rev p := by
  intro l
  induction l with
  | nil =>
    intro rev p rest h
    simp [findClose] at h
  | cons c t ih =>
    intro rev p rest h
    rw [findClose] at h
    by_cases hc : (c = '|' && !pipeSkippable rev) = true
    · rw [if_pos hc] at h
      simp only [Option.some.injEq, Prod.mk.injEq] at h
      rw [← h.1]
      trivial
    · rw [if_neg hc] at h
      cases h2 : findClose (c :: rev) t with
      | none =>
        rw [h2] at h
        simp at h
      | some pr =>
        obtain ⟨p1, rest1⟩ := pr
        rw [h2] at h
        simp only [Option.map_some', Option.some.injEq, Prod.mk.injEq] at h
        obtain ⟨h3, h4⟩ := h
        rw [← h3]
        show (c = '|' → pipeSkippable rev = true) ∧ AllSkippable (c :: rev) p1
        refine ⟨?_, ih (c :: rev) p1 rest1 h2⟩
        intro hcb
        subst hcb
        by_cases hs : pipeSkippable rev = true
        · exact hs
        · exfalso
          apply hc
          simp [hs]

theorem cvtAux_of_findClose_none : ∀ (l rev : List Char),
    findClose rev l = none → cvtAux rev l = l := by
  intro l
  induction l with
  | nil =>
    intro rev _
    exact cvtAux_nil rev
  | cons c t ih =>
    intro rev h
    rw [findClose] at h
    by_cases hc : (c = '|' && !pipeSkippable rev) = true
    · rw [if_pos hc] at h
      simp at h
    · rw [if_neg hc] at h
      have h2 : findClose (c :: rev) t = none := by
        cases h2 : findClose (c :: rev) t with
        | none => rfl
        | some pr =>
          rw [h2] at h
          simp at h
      by_cases hcb : c = '|'
      · subst hcb
        have hs : pipeSkippable rev = true := by
          by_cases hs : pipeSkippable rev = true
          · exact hs
          · exfalso
            apply hc
            simp [hs]
        rw [cvtAux_skip rev t hs, ih ('|' :: rev) h2]
      · rw [cvtAux_copy rev t hcb, ih (c :: rev) h2]

theorem findClose_none_agree : ∀ (l r r' : List Char), AgreeW r r' →
    findClose r l = none → findClose r' l = none := by
  intro l
  induction l with
  | nil =>
    intro r r' _ _
    rfl
  | cons c t ih =>
    intro r r' hA h
    rw [findClose] at h ⊢
    by_cases hc : (c = '|' && !pipeSkippable r) = true
    · rw [if_pos hc] at h
      simp at h
    · rw [if_neg hc] at h
      have h2 : findClose (c :: r) t = none := by
        cases h2 : findClose (c :: r) t with
        | none => rfl
        | some pr =>
          rw [h2] at h
          simp at h
      have hc' : ¬ (c = '|' && !pipeSkippable r') = true := by
        rw [← pipeSkippable_agree hA]
        exact hc
      rw [if_neg hc', ih (c :: r) (c :: r') (AgreeW_cons c hA) h2]
      rfl

theorem cvtAux_copy_span : ∀ (p : List Char) {R R' : List Char}
    (z : List Char), AllSkippable R p → AgreeW R R' →
    cvtAux R' (p ++ z) = p ++ cvtAux (p.reverse ++ R') z := by
  intro p
  induction p with
  | nil =>
    intro R R' z _ _
    simp
  | cons c p1 ih =>
    intro R R' z hAS hA
    have h1 : c = '|' → pipeSkippable R = true := hAS.1
    have h2 : AllSkippable (c :: R) p1 := hAS.2
    by_cases hc : c = '|'
    · subst hc
      have hs' : pipeSkippable R' = true := by
        rw [← pipeSkippable_agree hA]
        exact h1 rfl
      rw [List.cons_append, cvtAux_skip R' (p1 ++ z) hs',
        ih z h2 (AgreeW_cons '|' hA)]
      simp [List.reverse_cons, List.append_assoc]
    · rw [List.cons_append, cvtAux_copy R' (p1 ++ z) hc,
        ih z h2 (AgreeW_cons c hA)]
      simp [List.reverse_cons, List.append_assoc]

theorem cvtAux_left_block (r z : List Char) :
    cvtAux r (S "\\left|" ++ z) = S "\\left|" ++ cvtAux (revLB ++ r) z := by
  show cvtAux r ('\\' :: 'l' :: 'e' :: 'f' :: 't' :: '|' :: z) = _
  rw [@cvtAux_copy '\\' _ _ (by decide)]
  rw [@cvtAux_copy 'l' _ _ (by decide)]
  rw [@cvtAux_copy 'e' _ _ (by decide)]
  rw [@cvtAux_copy 'f' _ _ (by decide)]
  rw [@cvtAux_copy 't' _ _ (by decide)]
  have hs : pipeSkippable ('t' :: 'f' :: 'e' :: 'l' :: '\\' :: r) = true := rfl
  rw [cvtAux_skip _ _ hs]
  rfl

theorem cvtAux_right_block (r z : List Char) :
    cvtAux r (S "\\right|" ++ z) = S "\\right|" ++ cvtAux (revRB ++ r) z := by
  show cvtAux r ('\\' :: 'r' :: 'i' :: 'g' :: 'h' :: 't' :: '|' :: z) = _
  rw [@cvtAux_copy '\\' _ _ (by decide)]
  rw [@cvtAux_copy 'r' _ _ (by decide)]
  rw [@cvtAux_copy 'i' _ _ (by decide)]
  rw [@cvtAux_copy 'g' _ _ (by decide)]
  rw [@cvtAux_copy 'h' _ _ (by decide)]
  rw [@cvtAux_copy 't' _ _ (by decide)]
  have hs : pipeSkippable ('t' :: 'h' :: 'g' :: 'i' :: 'r' :: '\\' :: r) =
      true := rfl
  rw [cvtAux_skip _ _ hs]
  rfl

theorem cvtAux_idem : ∀ (n : Nat) (l rv rv' : List Char), l.length ≤ n →
    AgreeW rv rv' → cvtAux rv' (cvtAux rv l) = cvtAux rv l := by
  intro n
  induction n with
  | zero =>
    intro l rv rv' hn _
    have : l = [] := List.eq_nil_of_length_eq_zero (Nat.le_zero.mp hn)
    subst this
    rw [cvtAux_nil, cvtAux_nil]
  | succ n ih =>
    intro l rv rv' hn hA
    cases l with
    | nil => rw [cvtAux_nil, cvtAux_nil]
    | cons c t =>
      have hnt : t.length ≤ n := by simpa using hn
      by_cases hc : c = '|'
      · subst hc
        by_cases hs : pipeSkippable rv = true
        · have hs' : pipeSkippable rv' = true := by
            rw [← pipeSkippable_agree hA]
            exact hs
          rw [cvtAux_skip rv t hs, cvtAux_skip rv' _ hs',
            ih t ('|' :: rv) ('|' :: rv') hnt (AgreeW_cons '|' hA)]
        · have hsf : pipeSkippable rv = false := Bool.eq_false_iff.mpr hs
          have hsf' : pipeSkippable rv' = false := by
            rw [← pipeSkippable_agree hA]
            exact hsf
          cases hf : findClose ('|' :: rv) t with
          | none =>
            have ht : cvtAux ('|' :: rv) t = t :=
              cvtAux_of_findClose_none t ('|' :: rv) hf
            have hf' : findClose ('|' :: rv') t = none :=
              findClose_none_agree t ('|' :: rv) ('|' :: rv')
                (AgreeW_pipe rv rv') hf
            rw [cvtAux_noclose hsf hf, ht, cvtAux_noclose hsf' hf',
              cvtAux_of_findClose_none t ('|' :: rv') hf']
          | some pr =>
            obtain ⟨p, rest⟩ := pr
            have hrest : rest.length ≤ n :=
              Nat.le_of_lt (Nat.lt_of_lt_of_le (findClose_len hf) hnt)
            have hAS : AllSkippable ('|' :: rv) p :=
              findClose_allSkippable t ('|' :: rv) p rest hf
            rw [cvtAux_conv hsf hf]
            simp only [List.append_assoc]
            rw [cvtAux_left_block]
            have hAgr : AgreeW ('|' :: rv) (revLB ++ rv') :=
              AgreeW_pipe rv (revLeft ++ rv')
            rw [cvtAux_copy_span p _ hAS hAgr]
            rw [cvtAux_right_block]
            have hAgr2 : AgreeW ('|' :: p.reverse ++ '|' :: rv)
                (revRB ++ (p.reverse ++ (revLB ++ rv'))) :=
              AgreeW_pipe (p.reverse ++ '|' :: rv)
                (revRight ++ (p.reverse ++ (revLB ++ rv')))
            rw [ih rest ('|' :: p.reverse ++ '|' :: rv)
              (revRB ++ (p.reverse ++ (revLB ++ rv'))) hrest hAgr2]
      · rw [cvtAux_copy rv t hc, cvtAux_copy rv' _ hc,
          ih t (c :: rv) (c :: rv') hnt (AgreeW_cons c hA)]

/-- The bare-pipe scan is idempotent outright: every `\left|`/`\right|` it
emits is recognized and skipped on a rescan. -/
theorem convertSimplePipes_idem (s : List Char) :
    convertSimplePipes (convertSimplePipes s) = convertSimplePipes s :=
  cvtAux_idem s.length s [] [] (Nat.le_refl _) (Or.inl rfl)

theorem gsubF_id_of_none {m : List Char → Option (List Char × List Char)} :
    ∀ (n : Nat) (s : List Char), (∀ t, t <:+ s → m t = none) →
      gsubF m n s = s := by
  intro n
  induction n with
  | zero =>
    intro s _
    rfl
  | succ n ih =>
    intro s h
    cases s with
    | nil => rfl
    | cons c t =>
      have hm : m (c :: t) = none := h (c :: t) (List.suffix_refl _)
      rw [gsubF, hm]
      show c :: gsubF m n t = c :: t
      rw [ih t (fun u hu => h u (List.IsSuffix.trans hu
        (List.suffix_cons c t)))]

/-- A global replace whose matcher fires on no suffix of the subject is the
identity. -/
theorem gsub_id_of_none {m : List Char → Option (List Char × List Char)}
    {s : List Char} (h : ∀ t, t <:+ s → m t = none) : gsub m s = s :=
  gsubF_id_of_none s.length s h

theorem containsSub_lift {p lit t s : List Char}
    (h1 : containsSub p lit = true) (h2 : lit <+: t) (h3 : t <:+ s) :
    containsSub p s = true :=
  containsSub_iff_infix.mpr
    (( containsSub_iff_infix.mp h1).trans (h2.isInfix.trans h3.isInfix))

theorem litP_eq_some {lit s r : List Char} (h : litP lit s = some r) :
    s = lit ++ r := by
  rw [litP] at h
  split at h
  next hp =>
    simp only [Option.some.injEq] at h
    obtain ⟨u, hu⟩ := List.isPrefixOf_iff_prefix.mp hp
    subst hu
    rw [← h, List.drop_left]
  next =>
    simp at h

theorem litP_none_of_residue {p lit t s : List Char}
    (hpl : containsSub p lit = true) (ht : t <:+ s)
    (hres : containsSub p s = false) : litP lit t = none := by
  cases hm : litP lit t with
  | none => rfl
  | some r =>
    exfalso
    have h2 : lit <+: t := ⟨r, (litP_eq_some hm).symm⟩
    have h3 := containsSub_lift hpl h2 ht
    rw [hres] at h3
    exact Bool.noConfusion h3

/-- The optionally-escaped operator head `\mathrm{\?abs}` cannot match any
suffix of a string free of both the `\mathrm{abs}` and the `\abs`
spellings. -/
theorem mathrmAbsHead_none {t s : List Char} (ht : t <:+ s)
    (h1 : containsSub (S "\\mathrm\x7babs\x7d") s = false)
    (h2 : containsSub (S "\\abs") s = false) :
    mathrmAbsHead t = none := by
  cases hm : mathrmAbsHead t with
  | none => rfl
  | some r =>
    exfalso
    rw [mathrmAbsHead, Option.bind_eq_some] at hm
    obtain ⟨r1, hr1, hmm⟩ := hm
    have he1 : t = S "\\mathrm\x7b" ++ r1 := litP_eq_some hr1
    split at hmm
    · next u =>
      have hu : u = S "abs\x7d" ++ r := litP_eq_some hmm
      have hpre : S "\\mathrm\x7b\\abs\x7d" <+: t := by
        refine ⟨r, ?_⟩
        rw [he1, hu]
        rfl
      have hpl : containsSub (S "\\abs") (S "\\mathrm\x7b\\abs\x7d") =
          true := by decide
      have hcs := containsSub_lift hpl hpre ht
      rw [h2] at hcs
      exact Bool.noConfusion hcs
    · next =>
      have hu : r1 = S "abs\x7d" ++ r := litP_eq_some hmm
      have hpre : S "\\mathrm\x7babs\x7d" <+: t := by
        refine ⟨r, ?_⟩
        rw [he1, hu]
        rfl
      have hpl : containsSub (S "\\mathrm\x7babs\x7d")
          (S "\\mathrm\x7babs\x7d") = true := by decide
      have hcs := containsSub_lift hpl hpre ht
      rw [h1] at hcs
      exact Bool.noConfusion hcs

theorem gsub_mAbs1_id {s : List Char}
    (h1 : containsSub (S "\\mathrm\x7babs\x7d") s = false)
    (h2 : containsSub (S "\\abs") s = false) : gsub mAbs1 s = s :=
  gsub_id_of_none fun t ht => by
    rw [mAbs1, mathrmAbsHead_none ht h1 h2]
    rfl

theorem gsub_mAbs2_id {s : List Char}
    (h1 : containsSub (S "\\mathrm\x7babs\x7d") s = false)
    (h2 : containsSub (S "\\abs") s = false) : gsub mAbs2 s = s :=
  gsub_id_of_none fun t ht => by
    rw [mAbs2, mathrmAbsHead_none ht h1 h2]
    rfl

theorem gsub_mAbs3_id {s : List Char}
    (h1 : containsSub (S "\\mathrm\x7babs\x7d") s = false)
    (h2 : containsSub (S "\\abs") s = false) : gsub mAbs3 s = s :=
  gsub_id_of_none fun t ht => by
    rw [mAbs3, mathrmAbsHead_none ht h1 h2]
    rfl

theorem gsub_mAbs4_id {s : List Char}
    (h : containsSub (S "\\operatorname\x7babs\x7d") s = false) :
    gsub mAbs4 s = s :=
  gsub_id_of_none fun t ht => by
    have hpl : containsSub (S "\\operatorname\x7babs\x7d")
        (S "\\operatorname\x7babs\x7d") = true := by decide
    rw [mAbs4, litP_none_of_residue hpl ht h]
    rfl

theorem gsub_mAbs5_id {s : List Char}
    (h : containsSub (S "\\operatorname\x7babs\x7d") s = false) :
    gsub mAbs5 s = s :=
  gsub_id_of_none fun t ht => by
    have hpl : containsSub (S "\\operatorname\x7babs\x7d")
        (S "\\operatorname\x7babs\x7d") = true := by decide
    rw [mAbs5, litP_none_of_residue hpl ht h]
    rfl

theorem gsub_mVertPair_id {s : List Char}
    (h : containsSub (S "\\vert") s = false) : gsub mVertPair s = s :=
  gsub_id_of_none fun t ht => by
    have hpl : containsSub (S "\\vert") (S "\\vert") = true := by decide
    rw [mVertPair, litP_none_of_residue hpl ht h]
    rfl

theorem gsub_mAbsBrace_id {s : List Char}
    (h : containsSub (S "\\abs") s = false) : gsub mAbsBrace s = s :=
  gsub_id_of_none fun t ht => by
    have hpl : containsSub (S "\\abs") (S "\\abs") = true := by decide
    rw [mAbsBrace, litP_none_of_residue hpl ht h]
    rfl

theorem replaceLitWs_id {p lit rep s : List Char}
    (hpl : containsSub p lit = true) (hres : containsSub p s = false) :
    replaceLitWs lit rep s = s := by
  rw [replaceLitWs]
  exact gsub_id_of_none fun t ht => by
    rw [litP_none_of_residue hpl ht hres]
    rfl

/-- On a string free of every residual operator spelling the regex passes of
the rewriter are jointly the identity. -/
theorem absRegexPasses_id {s : List Char} (h : noAbsResidue s = true) :
    absRegexPasses s = s := by
  rw [noAbsResidue] at h
  simp only [Bool.and_eq_true, Bool.not_eq_true'] at h
  obtain ⟨⟨⟨⟨⟨hm, ho⟩, hv⟩, hl⟩, hr2⟩, hb⟩ := h
  show gsub mAbsBrace (gsub mVertPair
      (replaceLitWs (S "\\rvert") (S "\\right|")
      (replaceLitWs (S "\\lvert") (S "\\left|")
      (replaceLitWs (S "\\right\\vert") (S "\\right|")
      (replaceLitWs (S "\\left\\vert") (S "\\left|")
      (gsub mAbs5 (gsub mAbs4 (gsub mAbs3 (gsub mAbs2
        (gsub mAbs1 s)))))))))) = s
  have plv : containsSub (S "\\vert") (S "\\left\\vert") = true := by decide
  have prv : containsSub (S "\\vert") (S "\\right\\vert") = true := by decide
  have pl2 : containsSub (S "\\lvert") (S "\\lvert") = true := by decide
  have pr2 : containsSub (S "\\rvert") (S "\\rvert") = true := by decide
  rw [gsub_mAbs1_id hm hb, gsub_mAbs2_id hm hb, gsub_mAbs3_id hm hb,
    gsub_mAbs4_id ho, gsub_mAbs5_id ho, replaceLitWs_id plv hv,
    replaceLitWs_id prv hv, replaceLitWs_id pl2 hl, replaceLitWs_id pr2 hr2,
    gsub_mVertPair_id hv, gsub_mAbsBrace_id hb]

/-- C6: the claim asserts idempotence of the absolute-value rewriter on
*every* input.  It fails on nested named-operator forms: the lazy `[^)]*?`
capture of the `\mathrm{abs}(...)` pass stops at the first closing
parenthesis, the first application leaves a residual `\mathrm{abs}` spelling
behind, and the second application converts that residue, so the two outputs
differ. -/
theorem C6_counterexample :
    rewriteAbs (rewriteAbs (S "\\mathrm\x7babs\x7d(\\mathrm\x7babs\x7d(x))"))
      ≠ rewriteAbs (S "\\mathrm\x7babs\x7d(\\mathrm\x7babs\x7d(x))") := by
  decide

/-- C6 (amended): the rewriter is idempotent on every input whose rewritten
form carries no residual operator spelling (no `\mathrm{abs}`,
`\operatorname{abs}`, `\vert`, `\lvert`, `\rvert` or `\abs` left in the
output): the regex passes then find nothing on the second application, and
the bare-pipe scan recognizes every `\left|`/`\right|` it emitted and skips
it. -/
theorem C6_rewriteAbs_idem (s : List Char)
    (h : noAbsResidue (rewriteAbs s) = true) :
    rewriteAbs (rewriteAbs s) = rewriteAbs s := by
  have h1 : rewriteAbs (rewriteAbs s) =
      convertSimplePipes (absRegexPasses (rewriteAbs s)) := rfl
  rw [h1, absRegexPasses_id h]
  show convertSimplePipes (convertSimplePipes (absRegexPasses s)) =
    convertSimplePipes (absRegexPasses s)
  exact convertSimplePipes_idem (absRegexPasses s)

/-- C6 witness: the amended idempotence applied to a bare-pipe input, whose
rewritten form is residue-free. -/
theorem C6_witness :
    noAbsResidue (rewriteAbs (S "|x-1|")) = true ∧
      rewriteAbs (rewriteAbs (S "|x-1|")) = rewriteAbs (S "|x-1|") :=
  ⟨by decide, C6_rewriteAbs_idem (S "|x-1|") (by decide)⟩

end Ozon
